import Mathlib

/-!
# Verification of the contest-parser extraction pipeline

A shallow embedding of the pipeline in `emitters.go` of
`github.com/Feresey/contest-parser`: the header-name-driven table decoders
(`decodeProblem`, `decodeSubmission`), the stage drivers
(`ProblemsEmitter.Emit`, `SubmissionsEmitter.Emit` with `loadSource`,
`HrefEmitter.Emit`, `StandingsEmitter.Emit`), and the parts of `net/url`
(reference resolution, query parsing/encoding) that those stages call.

Modelling conventions:
* Go strings are byte sequences; they are modelled as Lean `String`s whose
  characters stand for the bytes (so "byte-valued" hypotheses `c.toNat < 256`
  appear where the byte/char correspondence matters, e.g. percent-encoding).
* A Go function that can panic (out-of-range slice indexing) or return a
  non-nil `error` is modelled with `GoResult`.
* HTML documents are modelled post-parse: a goquery selection of table rows
  is a list of rows, each carrying its cell texts (`.Text()` of the children),
  its inner HTML, and - for submission rows - the `href` of the first
  anchor matching `a:contains("View")[href]`, if any.
* `href` attribute values consumed by `HrefEmitter` and `StandingsEmitter`
  are modelled already split into `GoURL` components (scheme/host/path/query),
  which is what `net/url.Parse` produces on them; `url.Parse` failures for
  those stages are outside the model.  The raw-string `url.Parse` performed
  by `SubmissionsEmitter` on source hrefs is modelled by its dominant failure
  condition (an ASCII control character in the URL).
* Network fetches are an oracle `String → Except String (List Nat)` from a
  URL to the response body bytes or a transport error.
-/

namespace ContestParser

/-- Outcome of running a piece of Go code: a runtime panic (out-of-range
slice indexing), a returned non-nil `error` (carrying its message), or a
normal result. -/
inductive GoResult (α : Type) where
  | panicked : GoResult α
  | failed : String → GoResult α
  | ok : α → GoResult α
deriving Repr, DecidableEq

/-- The value of a successful `GoResult`, if any. -/
def GoResult.toOption {α : Type} : GoResult α → Option α
  | .ok a => some a
  | _ => none

/-- Model of Go `%q` formatting for the plain strings that appear in the
pipeline's error messages: the string wrapped in double quotes. -/
def goQuote (s : String) : String := "\"" ++ s ++ "\""

/-- Lower bound of Go's 64-bit `int`. -/
def intMin64 : Int := -(2 ^ 63)

/-- Upper bound of Go's 64-bit `int`. -/
def intMax64 : Int := 2 ^ 63 - 1

/-- Model of Go `strconv.Atoi` (= `strconv.ParseInt(s, 10, 0)` on a 64-bit
platform): an optional leading sign followed by at least one ASCII digit.
Returns the parsed value together with an optional error message; as in Go,
on a syntax error the returned value is `0` and on a range error it is the
clamped 64-bit bound. -/
def atoiGo (s : String) : Int × Option String :=
  let core : List Char × Bool :=
    match s.data with
    | '+' :: rest => (rest, false)
    | '-' :: rest => (rest, true)
    | cs => (cs, false)
  let ds := core.1
  let neg := core.2
  if ds.isEmpty ∨ ¬ ds.all Char.isDigit then
    (0, some ("strconv.Atoi: parsing " ++ goQuote s ++ ": invalid syntax"))
  else
    let n : Nat := ds.foldl (fun a c => a * 10 + (c.toNat - 48)) 0
    let v : Int := if neg then -(n : Int) else (n : Int)
    if v < intMin64 ∨ intMax64 < v then
      ((if neg then intMin64 else intMax64),
        some ("strconv.Atoi: parsing " ++ goQuote s ++ ": value out of range"))
    else (v, none)

/-- The `Problem` record of `emitters.go`: short name (`ID`), long name,
run identifier of the last judged attempt, acceptance flag.  Zero values
as in Go. -/
structure Problem where
  ID : String := ""
  Name : String := ""
  RunID : Int := 0
  OK : Bool := false
deriving Repr, DecidableEq

/-- The loop body of `ProblemsEmitter.decodeProblem`: iterate over the header
names with their index `idx`, switch on the known labels, and read `cols[idx]`
(panicking when `idx` is out of range, as Go slice indexing does).  The `err`
accumulator mirrors the named return value `err`: the "Run ID" case both
assigns `res.RunID` and overwrites `err` with the (wrapped) `strconv.Atoi`
error, and the loop keeps running after an error. -/
def decodeProblemLoop (cols : List String) :
    List String → Nat → Problem → Option String → GoResult Problem
  | [], _, res, err =>
    match err with
    | none => .ok res
    | some e => .failed e
  | name :: rest, idx, res, err =>
    if name = "Short name" then
      match cols.get? idx with
      | none => .panicked
      | some c => decodeProblemLoop cols rest (idx + 1) { res with ID := c } err
    else if name = "Long name" then
      match cols.get? idx with
      | none => .panicked
      | some c => decodeProblemLoop cols rest (idx + 1) { res with Name := c } err
    else if name = "Status" then
      match cols.get? idx with
      | none => .panicked
      | some c => decodeProblemLoop cols rest (idx + 1) { res with OK := c == "OK" } err
    else if name = "Run ID" then
      if res.OK then
        match cols.get? idx with
        | none => .panicked
        | some c =>
          decodeProblemLoop cols rest (idx + 1) { res with RunID := (atoiGo c).1 }
            ((atoiGo c).2.map (fun m => "decode run id: " ++ m))
      else decodeProblemLoop cols rest (idx + 1) res err
    else decodeProblemLoop cols rest (idx + 1) res err

/-- `ProblemsEmitter.decodeProblem names cols`. -/
def decodeProblem (names cols : List String) : GoResult Problem :=
  decodeProblemLoop cols names 0 {} none

/-- One step of `decodeProblem` expressed on a (header name, cell) pair;
used to reason about the loop as a fold over `names.zip cols` when no
index is out of range. -/
def decodePPair (st : Problem × Option String) (p : String × String) :
    Problem × Option String :=
  if p.1 = "Short name" then ({ st.1 with ID := p.2 }, st.2)
  else if p.1 = "Long name" then ({ st.1 with Name := p.2 }, st.2)
  else if p.1 = "Status" then ({ st.1 with OK := p.2 == "OK" }, st.2)
  else if p.1 = "Run ID" then
    if st.1.OK then
      ({ st.1 with RunID := (atoiGo p.2).1 },
        (atoiGo p.2).2.map (fun m => "decode run id: " ++ m))
    else st
  else st

/-- Wrap the final `(record, err)` state of the decode loop the way the
caller of `decodeProblem` sees it. -/
def decodeFinish (st : Problem × Option String) : GoResult Problem :=
  match st.2 with
  | none => .ok st.1
  | some e => .failed e

/-- A table row as seen by the Problems stage: the `.Text()` contents of its
children cells plus the row's own inner HTML. -/
structure PRow where
  cells : List String := []
  inner : String := ""
deriving Repr, DecidableEq

/-- A parsed Summary page, reduced to the goquery selection
`table[class=b1] > tbody > tr`: the list of table rows in document order
(first row = header row). -/
structure ProblemsDoc where
  rows : List PRow
deriving Repr, DecidableEq

/-- A `log.Error("decode problem", err, names, cols)` diagnostic record. -/
structure DecodeLog where
  msg : String
  names : List String
  cols : List String
deriving Repr, DecidableEq

/-- The data-row loop of `ProblemsEmitter.Emit` (`sel.Next().EachWithBreak`):
decode each row, appending to `pe.Problems`; the first row that fails to
decode is logged together with the header/column context and stops the
iteration with its error. -/
def problemsLoop (names : List String) :
    List PRow → List Problem × List DecodeLog × GoResult Unit
  | [] => ([], [], .ok ())
  | r :: rs =>
    match decodeProblem names r.cells with
    | .panicked => ([], [], .panicked)
    | .failed m => ([], [⟨m, names, r.cells⟩], .failed m)
    | .ok p =>
      let rec' := problemsLoop names rs
      (p :: rec'.1, rec'.2.1, rec'.2.2)

/-- Final state of `ProblemsEmitter` after `Emit`: the collected `Problems`,
the `SummaryTable` raw capture, the emitted error logs, and the returned
error, if any. -/
structure ProblemsState where
  problems : List Problem
  summaryTable : String
  logs : List DecodeLog
  outcome : GoResult Unit
deriving Repr, DecidableEq

/-- `ProblemsEmitter.Emit`.  `sel.Html()` returns the inner HTML of the
*first* element of the selection (goquery `Html` renders only
`s.Nodes[0]`'s children; on an empty selection it returns `""`), the header
names are the first row's cell texts, and the data rows (`sel.Next()`) are
the remaining rows. -/
def problemsEmit (d : ProblemsDoc) : ProblemsState :=
  let raw := ((d.rows.head?).map PRow.inner).getD ""
  let names := ((d.rows.head?).map PRow.cells).getD []
  let r := problemsLoop names d.rows.tail
  ⟨r.1, raw, r.2.1, r.2.2⟩

/-- The `Submission` record of `emitters.go`: problem identifier, language
label, the (unexported) source-download href, the source bytes (`nil` until
fetched, modelled by `none`), and the acceptance flag. -/
structure Submission where
  problemID : String := ""
  language : String := ""
  sourceHref : String := ""
  source : Option (List Nat) := none
  OK : Bool := false
deriving Repr, DecidableEq

/-- The loop body of `SubmissionsEmitter.decodeSubmission`: like
`decodeProblemLoop` but for the labels "Problem", "Language", "Result";
no case can produce a non-nil error, so the only failure is an
out-of-range panic. -/
def decodeSubmissionLoop (cols : List String) :
    List String → Nat → Submission → GoResult Submission
  | [], _, res => .ok res
  | name :: rest, idx, res =>
    if name = "Problem" then
      match cols.get? idx with
      | none => .panicked
      | some c => decodeSubmissionLoop cols rest (idx + 1) { res with problemID := c }
    else if name = "Language" then
      match cols.get? idx with
      | none => .panicked
      | some c => decodeSubmissionLoop cols rest (idx + 1) { res with language := c }
    else if name = "Result" then
      match cols.get? idx with
      | none => .panicked
      | some c => decodeSubmissionLoop cols rest (idx + 1) { res with OK := c == "OK" }
    else decodeSubmissionLoop cols rest (idx + 1) res

/-- `SubmissionsEmitter.decodeSubmission names cols`. -/
def decodeSubmission (names cols : List String) : GoResult Submission :=
  decodeSubmissionLoop cols names 0 {}

/-- Model of `net/url.Parse` success on the raw source-href strings of the
Submissions stage: its dominant failure condition is an ASCII control
character in the URL (`net/url: invalid control character in URL`). -/
def urlParseOk (s : String) : Bool :=
  s.data.all (fun c => 32 ≤ c.toNat ∧ c.toNat ≠ 127)

/-- The error message produced when `url.Parse` rejects a source href. -/
def urlParseErr (s : String) : String :=
  "parse " ++ goQuote s ++ ": net/url: invalid control character in URL"

/-- A table row as seen by the Submissions stage: the cell texts plus the
`href` attribute of the first anchor matching `a:contains("View")[href]`
among the row's children, if such an anchor exists. -/
structure SRow where
  cells : List String := []
  viewHref : Option String := none
deriving Repr, DecidableEq

/-- A parsed Submissions page, reduced to the selection
`table[class=b1] > tbody > tr` (first row = header row). -/
structure SubsDoc where
  rows : List SRow
deriving Repr, DecidableEq

/-- Result of the data-row loop of `SubmissionsEmitter.Emit`, carrying the
`se.Submissions` slice and the `uniqueSubmissions` key set accumulated so
far (panic / break-with-error / normal completion). -/
inductive SubsLoopResult where
  | panicked : List Submission → SubsLoopResult
  | failedL : List Submission → String → SubsLoopResult
  | okL : List Submission → List String → SubsLoopResult
deriving Repr, DecidableEq

/-- The data-row loop of `SubmissionsEmitter.Emit`: per row, decode the
cells, locate the "View" href (its absence breaks the loop with
`href to source not found`), `url.Parse` it, and only then drop the row if
its problem identifier is already in `uniqueSubmissions`; otherwise append
it and record the key. -/
def subsLoop (names : List String) :
    List SRow → List Submission → List String → SubsLoopResult
  | [], subs, keys => .okL subs keys
  | r :: rs, subs, keys =>
    match decodeSubmission names r.cells with
    | .panicked => .panicked subs
    | .failed m => .failedL subs m
    | .ok sub =>
      match r.viewHref with
      | none => .failedL subs "href to source not found"
      | some h =>
        if urlParseOk h then
          let sub' := { sub with sourceHref := h }
          if keys.contains sub'.problemID then subsLoop names rs subs keys
          else subsLoop names rs (subs ++ [sub']) (keys ++ [sub'.problemID])
        else .failedL subs (urlParseErr h)

/-- `SubmissionsEmitter.loadSource`: sequentially fetch each retained
submission's source href, storing the body bytes into its `Source` field;
the first failing fetch stops the loop and returns
`fetch url: <url>: <cause>`.  Returns the updated submissions slice (the
records before the failure keep their fetched bytes), the list of fetch
attempts in order, and the outcome. -/
def loadSource (fetch : String → Except String (List Nat)) :
    List Submission → List Submission × List String × GoResult Unit
  | [] => ([], [], .ok ())
  | s :: rest =>
    match fetch s.sourceHref with
    | .error e =>
      (s :: rest, [s.sourceHref],
        .failed ("fetch url: " ++ s.sourceHref ++ ": " ++ e))
    | .ok bytes =>
      let r := loadSource fetch rest
      ({ s with source := some bytes } :: r.1, s.sourceHref :: r.2.1, r.2.2)

/-- Final state of `SubmissionsEmitter` after `Emit`: the `Submissions`
field, the list of source-fetch attempts (URLs, in order), and the returned
error, if any. -/
structure SubsState where
  submissions : List Submission
  fetched : List String
  outcome : GoResult Unit
deriving Repr, DecidableEq

/-- `SubmissionsEmitter.Emit`: run the data-row loop; if it broke with an
error, return it without fetching anything; otherwise run `loadSource` over
the retained submissions. -/
def submissionsEmit (fetch : String → Except String (List Nat)) (d : SubsDoc) :
    SubsState :=
  let names := ((d.rows.head?).map SRow.cells).getD []
  match subsLoop names d.rows.tail [] [] with
  | .panicked subs => ⟨subs, [], .panicked⟩
  | .failedL subs m => ⟨subs, [], .failed m⟩
  | .okL subs _ =>
    let r := loadSource fetch subs
    ⟨r.1, r.2.1, r.2.2⟩

/-- The submission a "fine" row decodes to (cells decoded by
`decodeSubmission`, source href attached); meaningful when the row decodes
without panic and carries a parseable "View" href. -/
def subOfRow (names : List String) (r : SRow) : Submission :=
  match decodeSubmission names r.cells with
  | .ok s => { s with sourceHref := (r.viewHref).getD "" }
  | _ => {}

/-- A submission row that takes the normal path through the loop: its cells
decode without panic, and it carries a "View" href accepted by `url.Parse`. -/
def RowFine (names : List String) (r : SRow) : Prop :=
  (∃ s, decodeSubmission names r.cells = .ok s) ∧
    ∃ h, r.viewHref = some h ∧ urlParseOk h = true

/-- First-occurrence deduplication keyed by `problemID`, with an explicit
seen-key set: the declarative counterpart of the dedup performed inline by
the data-row loop.  Returns the retained submissions and the final key set. -/
def firstDedup : List Submission → List String → List Submission × List String
  | [], seen => ([], seen)
  | s :: rest, seen =>
    if seen.contains s.problemID then firstDedup rest seen
    else
      let r := firstDedup rest (seen ++ [s.problemID])
      (s :: r.1, r.2)

/-- A `net/url.URL` restricted to the components the pipeline uses
(no user info, opaque part or fragment): scheme, host, path, raw query.
A relative reference is a `GoURL` with empty `scheme` and `host`, which is
what `url.Parse` yields on strings like `submissions.cgi?a=b`. -/
structure GoURL where
  scheme : String := ""
  host : String := ""
  path : String := ""
  rawQuery : String := ""
deriving Repr, DecidableEq

/-- `base[:strings.LastIndex(base, "/")+1]`: the prefix of `s` up to and
including its last slash (empty when `s` has no slash). -/
def upToLastSlash (s : String) : String :=
  ⟨(s.data.reverse.dropWhile (· ≠ '/')).reverse⟩

/-- Whether the first byte of `s` is a slash (`ref[0] == '/'`). -/
def startsWithSlash (s : String) : Bool :=
  match s.data with
  | '/' :: _ => true
  | _ => false

/-- `strings.Split` on a single separator character, over the character
list. -/
def splitChar (sep : Char) (cur : List Char) : List Char → List (List Char)
  | [] => [cur.reverse]
  | c :: rest =>
    if c = sep then cur.reverse :: splitChar sep [] rest
    else splitChar sep (c :: cur) rest

/-- `strings.Join(_, "/")` over character lists. -/
def joinSlash : List (List Char) → List Char
  | [] => []
  | [g] => g
  | g :: gs => g ++ '/' :: joinSlash gs

/-- Go 1.15 `net/url.resolvePath`: merge `ref` into `base` (RFC 3986 §5.2.3)
and remove dot segments, producing a path with a leading slash. -/
def resolvePath (base ref : String) : String :=
  let full :=
    if ref = "" then base
    else if ¬ startsWithSlash ref then upToLastSlash base ++ ref
    else ref
  if full = "" then ""
  else
    let src := splitChar '/' [] full.data
    let dst := src.foldl
      (fun d e =>
        if e = ['.'] then d
        else if e = ['.', '.'] then d.dropLast
        else d ++ [e]) ([] : List (List Char))
    let dst2 := match src.getLast? with
      | some e => if e = ['.'] ∨ e = ['.', '.'] then dst ++ [[]] else dst
      | none => dst
    let joined := joinSlash dst2
    ⟨'/' :: (match joined with
      | '/' :: t => t
      | t => t)⟩

/-- `net/url.URL.ResolveReference` for the modelled components: an absolute
reference replaces everything (inheriting the scheme if absent); a reference
that is empty apart from its query keeps the base path and query; otherwise
the path is resolved against the base and the reference's query is taken. -/
def resolveReference (u ref : GoURL) : GoURL :=
  if ref.scheme ≠ "" ∨ ref.host ≠ "" then
    { scheme := if ref.scheme ≠ "" then ref.scheme else u.scheme,
      host := ref.host, path := resolvePath ref.path "",
      rawQuery := ref.rawQuery }
  else if ref.path = "" ∧ ref.rawQuery = "" then
    { scheme := u.scheme, host := u.host, path := u.path,
      rawQuery := u.rawQuery }
  else
    { scheme := u.scheme, host := u.host,
      path := resolvePath u.path ref.path, rawQuery := ref.rawQuery }

/-- The characters `net/url.shouldEscape` keeps verbatim in a query
component: ASCII alphanumerics and `-._~`. -/
def isUnreserved (c : Char) : Bool :=
  c.isAlphanum ∨ c = '-' ∨ c = '_' ∨ c = '.' ∨ c = '~'

/-- Upper-case hex digit for a value below 16 (Go escapes with
`"0123456789ABCDEF"`). -/
def hexDigitUpper (n : Nat) : Char :=
  "0123456789ABCDEF".data.getD n '0'

/-- `net/url.QueryEscape` on one byte: unreserved bytes verbatim, space
as `+`, everything else percent-encoded. -/
def queryEscapeChar (c : Char) : List Char :=
  if isUnreserved c then [c]
  else if c = ' ' then ['+']
  else ['%', hexDigitUpper (c.toNat / 16 % 16), hexDigitUpper (c.toNat % 16)]

/-- `net/url.QueryEscape`. -/
def queryEscape (s : String) : String :=
  ⟨(s.data.map queryEscapeChar).flatten⟩

/-- Value of an ASCII hex digit, if `c` is one (`net/url.unhex`). -/
def hexVal (c : Char) : Option Nat :=
  if 48 ≤ c.toNat ∧ c.toNat ≤ 57 then some (c.toNat - 48)
  else if 97 ≤ c.toNat ∧ c.toNat ≤ 102 then some (c.toNat - 87)
  else if 65 ≤ c.toNat ∧ c.toNat ≤ 70 then some (c.toNat - 55)
  else none

/-- `net/url.QueryUnescape` on the character list: `%XX` decodes the byte
(two hex digits required, otherwise `invalid URL escape`), `+` decodes to
space, everything else stays. -/
def unescapeChars : List Char → Option (List Char)
  | [] => some []
  | c :: rest =>
    if c = '%' then
      match rest with
      | a :: b :: rest2 =>
        match hexVal a, hexVal b with
        | some x, some y => (unescapeChars rest2).map (Char.ofNat (16 * x + y) :: ·)
        | _, _ => none
      | _ => none
    else if c = '+' then (unescapeChars rest).map (' ' :: ·)
    else (unescapeChars rest).map (c :: ·)

/-- `net/url.QueryUnescape`. -/
def queryUnescape (s : String) : Option String :=
  (unescapeChars s.data).map (⟨·⟩)

/-- Splitting a query string at every `&` or `;`, as the segment loop of
Go 1.15 `net/url.ParseQuery` does. -/
def splitSegs (cur : List Char) : List Char → List (List Char)
  | [] => [cur.reverse]
  | c :: rest =>
    if c = '&' ∨ c = ';' then cur.reverse :: splitSegs [] rest
    else splitSegs (c :: cur) rest

/-- Split a segment at its first `=` into key and value (value empty when
there is no `=`). -/
def splitFirstEq : List Char → List Char × List Char
  | [] => ([], [])
  | c :: rest =>
    if c = '=' then ([], rest)
    else
      let r := splitFirstEq rest
      (c :: r.1, r.2)

/-- Decode one non-empty query segment into an unescaped key/value pair;
`none` on an escape error. -/
def parsePair (seg : List Char) : Option (String × String) :=
  match queryUnescape ⟨(splitFirstEq seg).1⟩, queryUnescape ⟨(splitFirstEq seg).2⟩ with
  | some k, some v => some (k, v)
  | _, _ => none

/-- Go 1.15 `net/url.ParseQuery`, flattened: the key/value pairs of the
non-empty segments in order, or `none` if any segment fails to unescape
(Go records the first such error and the caller fails on it). -/
def parseQuery (s : String) : Option (List (String × String)) :=
  let segs := (splitSegs [] s.data).filter (· ≠ [])
  if segs.all (fun g => (parsePair g).isSome) then some (segs.filterMap parsePair)
  else none

/-- `url.Values.Set k v` on the flattened pair list: drop every pair with
key `k` and record the single pair `(k, v)`.  (In Go the map entry is
replaced; since `Encode` orders output by key, the flat position of the new
pair is irrelevant.) -/
def valuesSet (vs : List (String × String)) (k v : String) :
    List (String × String) :=
  vs.filter (fun kv => kv.1 ≠ k) ++ [(k, v)]

/-- Joining encoded segments with `&` (the buffer loop of
`url.Values.Encode`). -/
def joinAmp : List (List Char) → List Char
  | [] => []
  | [g] => g
  | g :: gs => g ++ '&' :: joinAmp gs

/-- The encoded `key=value` segment of one query pair. -/
def encodePair (kv : String × String) : List Char :=
  (queryEscape kv.1).data ++ '=' :: (queryEscape kv.2).data

/-- Go's lexicographic byte comparison (`a <= b` on strings), over the
character lists. -/
def listCharLe : List Char → List Char → Bool
  | [], _ => true
  | _ :: _, [] => false
  | a :: as, b :: bs =>
    if a.toNat < b.toNat then true
    else if b.toNat < a.toNat then false
    else listCharLe as bs

/-- Go string comparison on the byte model. -/
def goStrLe (a b : String) : Bool := listCharLe a.data b.data

/-- Insert a pair after every pair whose key is not greater (stable
insertion step of the key sort). -/
def insertPair (kv : String × String) : List (String × String) → List (String × String)
  | [] => [kv]
  | x :: rest => if goStrLe x.1 kv.1 then x :: insertPair kv rest else kv :: x :: rest

/-- Stable sort of the flattened pairs by key.  Go's `Encode` sorts the
(unique) map keys with `sort.Strings` and emits each key's values in slice
order; on the flattened pair list that is exactly a stable sort by key. -/
def sortByKey (l : List (String × String)) : List (String × String) :=
  l.foldl (fun acc kv => insertPair kv acc) []

/-- `url.Values.Encode`: segments `escape(k)=escape(v)` joined by `&`,
ordered by key. -/
def valuesEncode (vs : List (String × String)) : String :=
  ⟨joinAmp ((sortByKey vs).map encodePair)⟩

/-- The entry page as seen by `HrefEmitter.Emit`: for each action label, the
`href` of the first matching anchor inside the `contest_actions_item`
region, already split into URL components (absence = no such anchor). -/
structure HrefDoc where
  summaryHref : Option GoURL := none
  standingsHref : Option GoURL := none
  submissionsHref : Option GoURL := none
deriving Repr, DecidableEq

/-- `HrefEmitter.parseHref`: the labelled anchor's href resolved against the
entry page's URL, or a `"<label>" href not found` error. -/
def parseHref (base : GoURL) (label : String) (found : Option GoURL) :
    Except String GoURL :=
  match found with
  | none => .error (goQuote label ++ " href not found")
  | some r => .ok (resolveReference base r)

/-- Final state of `HrefEmitter` after `Emit`. -/
structure HrefState where
  SummaryHref : Option GoURL
  StandingsHref : Option GoURL
  SubmissionsHref : Option GoURL
  outcome : GoResult Unit
deriving Repr, DecidableEq

/-- `HrefEmitter.Emit`: resolve Summary, then Standings (the source resolves
Standings twice; both assignments store the same value), then Submissions,
whose resolved query string is parsed, updated with `all_runs=1` via
`Values.Set`, and re-encoded. -/
def hrefEmit (base : GoURL) (d : HrefDoc) : HrefState :=
  match parseHref base "Summary" d.summaryHref with
  | .error e => ⟨none, none, none, .failed e⟩
  | .ok su =>
    match parseHref base "Standings" d.standingsHref with
    | .error e => ⟨some su, none, none, .failed e⟩
    | .ok _ =>
      match parseHref base "Standings" d.standingsHref with
      | .error e => ⟨some su, none, none, .failed e⟩
      | .ok st =>
        match parseHref base "Submissions" d.submissionsHref with
        | .error e => ⟨some su, some st, none, .failed e⟩
        | .ok sub =>
          match parseQuery sub.rawQuery with
          | none => ⟨some su, some st, none, .failed "invalid URL escape"⟩
          | some q =>
            ⟨some su, some st,
              some { sub with rawQuery := valuesEncode (valuesSet q "all_runs" "1") },
              .ok ()⟩

/-- An element of the standings document: its tag and its `href` attribute,
if present (href values modelled pre-split, like every href consumed via
`originalHref.Parse`). -/
structure SNode where
  tag : String := ""
  href : Option GoURL := none
deriving Repr, DecidableEq

/-- A parsed standings page: its elements in document order.  Serialization
(`doc.Html()`) is modelled as the document itself. -/
structure StandingsDoc where
  nodes : List SNode
deriving Repr, DecidableEq

/-- Whether a node is matched by `doc.Find("link[href]")`. -/
def linkMatch (n : SNode) : Bool :=
  n.tag = "link" ∧ (n.href).isSome

/-- `StandingsEmitter.Emit`: `link := doc.Find("link[href]")` selects every
matching element; `link.Attr("href")` reads the *first* matched element's
href; if found, it is resolved against the page URL and
`link.SetAttr("href", ...)` writes that value onto *every* matched element.
The (possibly mutated) document is then stored as `StandingsPage`. -/
def standingsEmit (base : GoURL) (d : StandingsDoc) :
    StandingsDoc × GoResult Unit :=
  match ((d.nodes.filter linkMatch).head?).bind SNode.href with
  | none => (d, .ok ())
  | some h =>
    let u := resolveReference base h
    (⟨d.nodes.map (fun n => if linkMatch n then { n with href := some u } else n)⟩,
      .ok ())

/-- A submission record with its `Source` field cleared: the part of a
`Submission` that the row decode determines (the fetch pass only writes
`source`). -/
def stripSource (s : Submission) : Submission := { s with source := none }

/-- Modelled from the spec: "the verbatim inner HTML of the table whose rows
were decoded" - the concatenated outer HTML of all the matched rows.  Used
only to compare the spec's description of the raw capture against what
`ProblemsEmitter.Emit` actually stores. -/
def specTableInnerHtml (d : ProblemsDoc) : String :=
  String.intercalate "" (d.rows.map (fun r => "<tr>" ++ r.inner ++ "</tr>"))

/-- The header labels `decodeProblem` reacts to. -/
def problemLabels : List String := ["Short name", "Long name", "Status", "Run ID"]

/-- The evolution of the `res.OK` field along the fold: one step. -/
def okStep (b : Bool) (p : String × String) : Bool :=
  if p.1 = "Status" then p.2 == "OK" else b

/-- The value of the `res.OK` field after reading a list of header/cell
pairs, starting from `b`. -/
def okState (l : List (String × String)) (b : Bool) : Bool :=
  l.foldl okStep b

/-- Whether the row's status cell has been read as accepted by the time
column `j` is processed: the value of the decoder's `OK` field after the
first `j` header/cell pairs. -/
def statusReadBefore (names cols : List String) (j : Nat) : Bool :=
  okState ((names.zip cols).take j) false

/-- The decoder's `OK` flag when the loop, started at header position `idx`
with flag `b`, reaches its `j`-th remaining header: only "Status" columns
update the flag, from the cell they read (`getD` stands for the in-range
read; an out-of-range "Status" column panics before the flag matters). -/
def flagAt (cols : List String) : List String → Nat → Bool → Nat → Bool
  | _, _, b, 0 => b
  | [], _, b, _ + 1 => b
  | name :: rest, idx, b, j + 1 =>
    flagAt cols rest (idx + 1) (if name = "Status" then (cols.getD idx "") == "OK" else b) j

/-! ## Lemmas about the row decoders -/

/-- `decodeFinish` on an error-free state. -/
theorem decodeFinish_of_noerr {st : Problem × Option String} (h : st.2 = none) :
    decodeFinish st = .ok st.1 := by
  obtain ⟨p, e⟩ := st
  cases h
  rfl

/-- `decodeFinish` on a state carrying an error. -/
theorem decodeFinish_of_err {st : Problem × Option String} {e : String}
    (h : st.2 = some e) : decodeFinish st = .failed e := by
  obtain ⟨p, e'⟩ := st
  cases h
  rfl

/-- When no header index is out of range, the indexed decode loop is the fold
of `decodePPair` over the header/cell pairs. -/
theorem decodeProblemLoop_eq_foldl (cols : List String) :
    ∀ (names : List String) (idx : Nat) (res : Problem) (err : Option String),
      names.length + idx ≤ cols.length →
      decodeProblemLoop cols names idx res err =
        decodeFinish ((names.zip (cols.drop idx)).foldl decodePPair (res, err))
  | [], idx, res, err, _ => by
    simp [decodeProblemLoop, decodeFinish]
  | name :: rest, idx, res, err, h => by
    have hidx : idx < cols.length := by
      simp only [List.length_cons] at h; omega
    have hget : cols.get? idx = some cols[idx] := by
      rw [List.get?_eq_getElem?, List.getElem?_eq_getElem hidx]
    have hdrop : cols.drop idx = cols[idx] :: cols.drop (idx + 1) :=
      List.drop_eq_getElem_cons hidx
    have hlen : rest.length + (idx + 1) ≤ cols.length := by
      simp only [List.length_cons] at h; omega
    have ih := fun res' err' => decodeProblemLoop_eq_foldl cols rest (idx + 1) res' err' hlen
    rw [hdrop]
    simp only [decodeProblemLoop, hget, List.zip_cons_cons, List.foldl_cons, decodePPair]
    split_ifs <;> simp [ih]

/-- `decodeProblem` as a fold over the header/cell pairs, for in-range
headers. -/
theorem decodeProblem_eq_foldl {names cols : List String}
    (h : names.length ≤ cols.length) :
    decodeProblem names cols =
      decodeFinish ((names.zip cols).foldl decodePPair ({}, none)) := by
  have := decodeProblemLoop_eq_foldl cols names 0 {} none (by omega)
  simpa [decodeProblem] using this

/-- A pair whose label is none of the known problem labels leaves the decode
state untouched. -/
theorem decodePPair_unknown (st : Problem × Option String) {p : String × String}
    (h : p.1 ∉ problemLabels) : decodePPair st p = st := by
  simp only [problemLabels, List.mem_cons, not_or] at h
  obtain ⟨h1, h2, h3, h4, -⟩ := h
  simp [decodePPair, h1, h2, h3, h4]

/-- One decode step changes the `OK` field exactly as `okStep` does. -/
theorem decodePPair_OK_step (st : Problem × Option String) (p : String × String) :
    (decodePPair st p).1.OK = okStep st.1.OK p := by
  simp only [decodePPair, okStep]
  split_ifs <;> simp_all

/-- The `OK` field of the fold state is computed by `okState`. -/
theorem foldl_decodePPair_OK (l : List (String × String)) :
    ∀ st : Problem × Option String,
      (l.foldl decodePPair st).1.OK = okState l st.1.OK := by
  induction l with
  | nil => intro st; simp [okState]
  | cons p rest ih =>
    intro st
    rw [List.foldl_cons, ih, decodePPair_OK_step]
    simp [okState]

/-- If every "Run ID" pair in `l` is read while the `OK` state is false, the
error accumulator is never touched. -/
theorem foldl_decodePPair_err_skip (l : List (String × String)) :
    ∀ st : Problem × Option String,
      (∀ l1 c l2, l = l1 ++ ("Run ID", c) :: l2 → okState l1 st.1.OK = false) →
      (l.foldl decodePPair st).2 = st.2 := by
  induction l with
  | nil => intro st _; rfl
  | cons p rest ih =>
    intro st h
    rw [List.foldl_cons]
    have hstep : ∀ l1 c l2, rest = l1 ++ ("Run ID", c) :: l2 →
        okState l1 (decodePPair st p).1.OK = false := by
      intro l1 c l2 hr
      have := h (p :: l1) c l2 (by rw [hr]; rfl)
      rw [decodePPair_OK_step]
      simpa [okState, List.foldl_cons] using this
    rw [ih _ hstep]
    by_cases h1 : p.1 = "Short name"
    · simp [decodePPair, h1]
    · by_cases h2 : p.1 = "Long name"
      · simp [decodePPair, h1, h2]
      · by_cases h3 : p.1 = "Status"
        · simp [decodePPair, h1, h2, h3]
        · by_cases h4 : p.1 = "Run ID"
          · have hfalse : st.1.OK = false := by
              simpa [okState] using h [] p.2 rest (by rw [h4.symm]; rfl)
            simp [decodePPair, h1, h2, h3, h4, hfalse]
          · simp [decodePPair, h1, h2, h3, h4]

/-- If `l` contains no "Run ID" pair at all, the error accumulator is never
touched. -/
theorem foldl_decodePPair_err_norun (l : List (String × String))
    (st : Problem × Option String) (h : ∀ p ∈ l, p.1 ≠ "Run ID") :
    (l.foldl decodePPair st).2 = st.2 := by
  refine foldl_decodePPair_err_skip l st ?_
  intro l1 c l2 hl
  exact absurd rfl (h ("Run ID", c) (by rw [hl]; simp))

/-- The `ID` field is only written by "Short name" pairs. -/
theorem foldl_decodePPair_ID (l : List (String × String)) :
    ∀ st : Problem × Option String, (∀ p ∈ l, p.1 ≠ "Short name") →
      (l.foldl decodePPair st).1.ID = st.1.ID := by
  induction l with
  | nil => intro st _; rfl
  | cons p rest ih =>
    intro st h
    rw [List.foldl_cons, ih _ (fun q hq => h q (List.mem_cons_of_mem p hq))]
    have h1 := h p (List.mem_cons_self p rest)
    simp only [decodePPair]
    split_ifs <;> simp_all

/-- The `Name` field is only written by "Long name" pairs. -/
theorem foldl_decodePPair_Name (l : List (String × String)) :
    ∀ st : Problem × Option String, (∀ p ∈ l, p.1 ≠ "Long name") →
      (l.foldl decodePPair st).1.Name = st.1.Name := by
  induction l with
  | nil => intro st _; rfl
  | cons p rest ih =>
    intro st h
    rw [List.foldl_cons, ih _ (fun q hq => h q (List.mem_cons_of_mem p hq))]
    have h1 := h p (List.mem_cons_self p rest)
    simp only [decodePPair]
    split_ifs <;> simp_all

/-- The `OK` field is only written by "Status" pairs. -/
theorem foldl_decodePPair_OK_nostatus (l : List (String × String))
    (st : Problem × Option String) (h : ∀ p ∈ l, p.1 ≠ "Status") :
    (l.foldl decodePPair st).1.OK = st.1.OK := by
  rw [foldl_decodePPair_OK]
  induction l generalizing st with
  | nil => rfl
  | cons p rest ih =>
    have h1 := h p (List.mem_cons_self p rest)
    rw [okState, List.foldl_cons]
    have : okStep st.1.OK p = st.1.OK := by simp [okStep, h1]
    rw [this]
    exact ih st (fun q hq => h q (List.mem_cons_of_mem p hq))

/-- The `RunID` field is only written by "Run ID" pairs. -/
theorem foldl_decodePPair_RunID (l : List (String × String)) :
    ∀ st : Problem × Option String, (∀ p ∈ l, p.1 ≠ "Run ID") →
      (l.foldl decodePPair st).1.RunID = st.1.RunID := by
  induction l with
  | nil => intro st _; rfl
  | cons p rest ih =>
    intro st h
    rw [List.foldl_cons, ih _ (fun q hq => h q (List.mem_cons_of_mem p hq))]
    have h1 := h p (List.mem_cons_self p rest)
    simp only [decodePPair]
    split_ifs <;> simp_all

/-- If every "Run ID" column occurs while the status has not been read as
accepted, the numeric parse is skipped everywhere and decoding succeeds. -/
theorem decodeProblem_ok_of_skip {names cols : List String}
    (hlen : names.length ≤ cols.length)
    (h : ∀ j, (hj : j < names.length) → names[j] = "Run ID" →
      statusReadBefore names cols j = false) :
    ∃ p, decodeProblem names cols = .ok p := by
  rw [decodeProblem_eq_foldl hlen]
  have herr : ((names.zip cols).foldl decodePPair ({}, none)).2 = (none : Option String) := by
    refine foldl_decodePPair_err_skip _ _ ?_
    intro l1 c l2 hsplit
    have hlzip : (names.zip cols).length = names.length := by
      rw [List.length_zip]; omega
    have hj : l1.length < (names.zip cols).length := by
      rw [hsplit]; simp
    have hjn : l1.length < names.length := by omega
    have hname : names[l1.length] = "Run ID" := by
      have hz : (names.zip cols)[l1.length] = ("Run ID", c) := by
        rw [List.getElem_of_eq hsplit hj, List.getElem_append_right (Nat.le_refl _)]
        simp
      have hz2 := @List.getElem_zip _ _ names cols l1.length hj
      have := hz2.symm.trans hz
      simpa using congrArg Prod.fst this
    have htake : (names.zip cols).take l1.length = l1 := by
      rw [hsplit]; exact List.take_left _ _
    have := h l1.length hjn hname
    rw [statusReadBefore, htake] at this
    simpa using this
    -- the initial `OK` field is `false`
  exact ⟨_, decodeFinish_of_noerr herr⟩

/-- If the status has been read as accepted before the last "Run ID" column
and the run-id cell does not parse, decoding fails with the wrapped
`decode run id` error. -/
theorem decodeProblem_failed_of_badRunID {names cols : List String} {j : Nat} {m : String}
    (hlen : names.length ≤ cols.length) (hj : j < names.length)
    (hname : names[j] = "Run ID")
    (hok : statusReadBefore names cols j = true)
    (hbad : (atoiGo (cols.getD j "")).2 = some m)
    (hlast : ∀ k, (hk : k < names.length) → j < k → names[k] ≠ "Run ID") :
    decodeProblem names cols = .failed ("decode run id: " ++ m) := by
  rw [decodeProblem_eq_foldl hlen]
  set l := names.zip cols with hl
  have hlzip : l.length = names.length := by rw [hl, List.length_zip]; omega
  have hjl : j < l.length := by omega
  have hjc : j < cols.length := by omega
  have hsplit : l = l.take j ++ l[j] :: l.drop (j + 1) := by
    conv_lhs => rw [← List.take_append_drop j l]
    rw [List.drop_eq_getElem_cons hjl]
  have hzj : l[j] = (names[j], cols[j]) := List.getElem_zip ..
  have hgetD : cols.getD j "" = cols[j] := List.getD_eq_getElem cols "" hjc
  rw [hgetD] at hbad
  -- state after the first j pairs: OK is true
  have hOKmid : ((l.take j).foldl decodePPair (({} : Problem), (none : Option String))).1.OK = true := by
    rw [foldl_decodePPair_OK]
    exact hok
  -- run the split fold
  rw [hsplit, List.foldl_append, List.foldl_cons]
  set st1 := (l.take j).foldl decodePPair (({} : Problem), (none : Option String)) with hst1
  have hstep : decodePPair st1 l[j] =
      ({ st1.1 with RunID := (atoiGo cols[j]).1 }, some ("decode run id: " ++ m)) := by
    rw [hzj]
    simp only [decodePPair]
    rw [hname, if_neg (by decide), if_neg (by decide), if_neg (by decide), if_pos rfl,
      if_pos hOKmid, hbad]
    rfl
  rw [hstep]
  have htail : ∀ p ∈ l.drop (j + 1), p.1 ≠ "Run ID" := by
    intro p hp
    obtain ⟨i, hi, hpi⟩ := List.mem_iff_getElem.mp hp
    have hdl : (l.drop (j + 1)).length = l.length - (j + 1) := by simp
    have hidx : j + 1 + i < l.length := by omega
    have : (l.drop (j + 1))[i] = l[j + 1 + i] := by rw [List.getElem_drop]
    have hzi : l[j + 1 + i] =
        (names.get ⟨j + 1 + i, by omega⟩, cols.get ⟨j + 1 + i, by omega⟩) :=
      List.getElem_zip ..
    rw [← hpi, this, hzi]
    exact hlast (j + 1 + i) (by omega) (by omega)
  have herr := foldl_decodePPair_err_norun (l.drop (j + 1))
    ({ st1.1 with RunID := (atoiGo cols[j]).1 }, some ("decode run id: " ++ m)) htail
  exact decodeFinish_of_err herr

/-- An unknown-label pair is a no-op, so the decode fold only depends on the
known-label pairs. -/
theorem foldl_decodePPair_filter (l : List (String × String)) :
    ∀ st : Problem × Option String,
      l.foldl decodePPair st =
        (l.filter (fun p => p.1 ∈ problemLabels)).foldl decodePPair st := by
  induction l with
  | nil => intro st; rfl
  | cons p rest ih =>
    intro st
    by_cases hp : p.1 ∈ problemLabels
    · rw [List.foldl_cons, ih, List.filter_cons_of_pos (by simpa using hp), List.foldl_cons]
    · rw [List.foldl_cons, decodePPair_unknown st hp, ih,
        List.filter_cons_of_neg (by simpa using hp)]

/-- Decoding depends only on the known-label header/cell pairs: two
header/row inputs whose known-label columns agree decode identically. -/
theorem decodeProblem_known_pairs {names cols names2 cols2 : List String}
    (h1 : names.length ≤ cols.length) (h2 : names2.length ≤ cols2.length)
    (heq : (names.zip cols).filter (fun p => p.1 ∈ problemLabels) =
      (names2.zip cols2).filter (fun p => p.1 ∈ problemLabels)) :
    decodeProblem names cols = decodeProblem names2 cols2 := by
  rw [decodeProblem_eq_foldl h1, decodeProblem_eq_foldl h2,
    foldl_decodePPair_filter, heq, ← foldl_decodePPair_filter]

/-- `decodeFinish` returns `.ok p` exactly when the state carries no error
and its record is `p`. -/
theorem decodeFinish_eq_ok {st : Problem × Option String} {p : Problem} :
    decodeFinish st = .ok p ↔ st.2 = none ∧ st.1 = p := by
  obtain ⟨q, e⟩ := st
  cases e <;> simp [decodeFinish]

/-- The data-row loop of the Problems stage on rows that all decode:
collects every decoded record, no logs, no error. -/
theorem problemsLoop_all_ok {names : List String} :
    ∀ rows : List PRow, (∀ r ∈ rows, ∃ p, decodeProblem names r.cells = .ok p) →
      problemsLoop names rows =
        (rows.filterMap (fun r => (decodeProblem names r.cells).toOption), [], .ok ())
  | [], _ => rfl
  | r :: rs, h => by
    obtain ⟨p, hp⟩ := h r (List.mem_cons_self r rs)
    have ih := problemsLoop_all_ok rs (fun q hq => h q (List.mem_cons_of_mem r hq))
    simp [problemsLoop, hp, ih, GoResult.toOption]

/-- The data-row loop of the Problems stage aborts at the first failing row:
it keeps the records decoded before it, logs the failing row's
header/column context once, and returns that row's error. -/
theorem problemsLoop_abort {names : List String} {bad : PRow} {m : String} :
    ∀ (pre post : List PRow), (∀ r ∈ pre, ∃ p, decodeProblem names r.cells = .ok p) →
      decodeProblem names bad.cells = .failed m →
      problemsLoop names (pre ++ bad :: post) =
        (pre.filterMap (fun r => (decodeProblem names r.cells).toOption),
          [⟨m, names, bad.cells⟩], .failed m)
  | [], post, _, hbad => by simp [problemsLoop, hbad]
  | r :: rs, post, h, hbad => by
    obtain ⟨p, hp⟩ := h r (List.mem_cons_self r rs)
    have ih := problemsLoop_abort rs post (fun q hq => h q (List.mem_cons_of_mem r hq)) hbad
    simp [problemsLoop, hp, ih, GoResult.toOption]

/-- An out-of-range matched column with one of the three unconditional
labels makes the decode loop panic, wherever it sits. -/
theorem decodeProblemLoop_panics (cols : List String) :
    ∀ (names : List String) (idx : Nat) (res : Problem) (err : Option String) (j : Nat)
      (hj : j < names.length),
      names[j] ∈ (["Short name", "Long name", "Status"] : List String) →
      cols.length ≤ idx + j →
      decodeProblemLoop cols names idx res err = .panicked
  | [], _, _, _, j, hj, _, _ => absurd hj (by simp)
  | n :: rest, idx, res, err, j, hj, hmem, hlen => by
    cases j with
    | zero =>
      have hget : cols[idx]? = none := List.getElem?_eq_none (by omega)
      simp only [List.getElem_cons_zero] at hmem
      simp only [List.mem_cons, List.not_mem_nil, or_false] at hmem
      rcases hmem with h | h | h <;> subst h <;> simp [decodeProblemLoop, hget]
    | succ i =>
      have hi : i < rest.length := by simpa using Nat.lt_of_succ_lt_succ (by simpa using hj)
      have hmem' : rest[i] ∈ (["Short name", "Long name", "Status"] : List String) := by
        have : (n :: rest)[i + 1] = rest[i] := List.getElem_cons_succ ..
        rwa [this] at hmem
      have hlen' : cols.length ≤ (idx + 1) + i := by omega
      have ih := fun res' err' =>
        decodeProblemLoop_panics cols rest (idx + 1) res' err' i hi hmem' hlen'
      simp only [decodeProblemLoop]
      split_ifs <;> cases hget : cols.get? idx <;> simp [hget, ih]

/-- An out-of-range matched column makes `decodeSubmission`'s loop panic,
wherever it sits (all three of its labels are unconditional). -/
theorem decodeSubmissionLoop_panics (cols : List String) :
    ∀ (names : List String) (idx : Nat) (res : Submission) (j : Nat)
      (hj : j < names.length),
      names[j] ∈ (["Problem", "Language", "Result"] : List String) →
      cols.length ≤ idx + j →
      decodeSubmissionLoop cols names idx res = .panicked
  | [], _, _, j, hj, _, _ => absurd hj (by simp)
  | n :: rest, idx, res, j, hj, hmem, hlen => by
    cases j with
    | zero =>
      have hget : cols[idx]? = none := List.getElem?_eq_none (by omega)
      simp only [List.getElem_cons_zero] at hmem
      simp only [List.mem_cons, List.not_mem_nil, or_false] at hmem
      rcases hmem with h | h | h <;> subst h <;> simp [decodeSubmissionLoop, hget]
    | succ i =>
      have hi : i < rest.length := by simpa using Nat.lt_of_succ_lt_succ (by simpa using hj)
      have hmem' : rest[i] ∈ (["Problem", "Language", "Result"] : List String) := by
        have : (n :: rest)[i + 1] = rest[i] := List.getElem_cons_succ ..
        rwa [this] at hmem
      have hlen' : cols.length ≤ (idx + 1) + i := by omega
      have ih := fun res' =>
        decodeSubmissionLoop_panics cols rest (idx + 1) res' i hi hmem' hlen'
      simp only [decodeSubmissionLoop]
      split_ifs <;> cases hget : cols.get? idx <;> simp [hget, ih]

/-- Away from out-of-range "Status" columns, the loop flag `flagAt` is the
`okState` fold over the header/cell pairs. -/
theorem flagAt_eq_okState (cols : List String) :
    ∀ (names : List String) (idx : Nat) (b : Bool) (j : Nat),
      (∀ k, (hk : k < names.length) → k < j → cols.length ≤ idx + k →
        names[k] ≠ "Status") →
      flagAt cols names idx b j = okState ((names.zip (cols.drop idx)).take j) b
  | names, idx, b, 0, _ => by
    simp [flagAt, okState]
  | [], idx, b, j + 1, _ => by
    simp [flagAt, okState]
  | name :: rest, idx, b, j + 1, h => by
    have ih := fun (b' : Bool) => flagAt_eq_okState cols rest (idx + 1) b' j
      (fun k hk hkj hkc => by
        have hk1 : k + 1 < (name :: rest).length := by
          simpa using Nat.succ_lt_succ hk
        have he : (name :: rest)[k + 1] = rest[k] := List.getElem_cons_succ ..
        have := h (k + 1) hk1 (by omega) (by omega)
        rwa [he] at this)
    by_cases hidx : idx < cols.length
    · have hdrop : cols.drop idx = cols[idx] :: cols.drop (idx + 1) :=
        List.drop_eq_getElem_cons hidx
      have hgetD : cols.getD idx "" = cols[idx] := List.getD_eq_getElem cols "" hidx
      rw [hdrop, List.zip_cons_cons, List.take_succ_cons]
      simp only [flagAt, hgetD]
      rw [ih _]
      simp [okState, okStep]
    · have hdrop : cols.drop idx = [] := List.drop_eq_nil_of_le (by omega)
      have hdrop' : cols.drop (idx + 1) = [] := List.drop_eq_nil_of_le (by omega)
      have hname : name ≠ "Status" := by
        have he : (name :: rest)[0] = name := by simp
        have := h 0 (by simp) (by omega) (by omega)
        rwa [he] at this
      rw [hdrop]
      simp only [flagAt, if_neg hname]
      rw [ih b, hdrop']
      simp [okState]

/-- Away from out-of-range "Status" columns among the first `j` headers, the
loop flag at column `j` is `statusReadBefore`. -/
theorem flagAt_statusReadBefore (names cols : List String) (j : Nat)
    (h : ∀ k, (hk : k < names.length) → k < j → cols.length ≤ k →
      names[k] ≠ "Status") :
    flagAt cols names 0 false j = statusReadBefore names cols j := by
  have := flagAt_eq_okState cols names 0 false j
    (fun k hk hkj hkc => h k hk hkj (by omega))
  simpa [statusReadBefore] using this

/-- An out-of-range "Run ID" column reached with the acceptance flag already
true makes the decode loop panic, wherever it sits. -/
theorem decodeProblemLoop_panics_runid (cols : List String) :
    ∀ (names : List String) (idx : Nat) (res : Problem) (err : Option String) (j : Nat)
      (hj : j < names.length),
      names[j] = "Run ID" →
      cols.length ≤ idx + j →
      flagAt cols names idx res.OK j = true →
      decodeProblemLoop cols names idx res err = .panicked
  | [], _, _, _, j, hj, _, _, _ => absurd hj (by simp)
  | n :: rest, idx, res, err, j, hj, hname, hlen, hflag => by
    cases j with
    | zero =>
      have hget : cols[idx]? = none := List.getElem?_eq_none (by omega)
      have hn : n = "Run ID" := by simpa using hname
      have hOK : res.OK = true := by simpa [flagAt] using hflag
      subst hn
      simp [decodeProblemLoop, hget, hOK]
    | succ i =>
      have hi : i < rest.length := by
        simp only [List.length_cons] at hj; omega
      have hname' : rest[i] = "Run ID" := by
        have he : (n :: rest)[i + 1] = rest[i] := List.getElem_cons_succ ..
        rwa [he] at hname
      have hlen' : cols.length ≤ (idx + 1) + i := by omega
      have hflag' : flagAt cols rest (idx + 1)
          (if n = "Status" then (cols.getD idx "") == "OK" else res.OK) i = true := by
        simpa only [flagAt] using hflag
      have hfl0 : n ≠ "Status" → flagAt cols rest (idx + 1) res.OK i = true := fun hns => by
        rwa [if_neg hns] at hflag'
      simp only [decodeProblemLoop]
      by_cases h1 : n = "Short name"
      · rw [if_pos h1]
        cases hget : cols.get? idx with
        | none => rfl
        | some c =>
          exact decodeProblemLoop_panics_runid cols rest (idx + 1) { res with ID := c } err
            i hi hname' hlen' (hfl0 (by rw [h1]; decide))
      · rw [if_neg h1]
        by_cases h2 : n = "Long name"
        · rw [if_pos h2]
          cases hget : cols.get? idx with
          | none => rfl
          | some c =>
            exact decodeProblemLoop_panics_runid cols rest (idx + 1) { res with Name := c } err
              i hi hname' hlen' (hfl0 (by rw [h2]; decide))
        · rw [if_neg h2]
          by_cases h3 : n = "Status"
          · rw [if_pos h3]
            cases hget : cols.get? idx with
            | none => rfl
            | some c =>
              have hgd : cols.getD idx "" = c := by
                rw [List.getD_eq_getElem?_getD, ← List.get?_eq_getElem?, hget]
                rfl
              have hfl : flagAt cols rest (idx + 1) (c == "OK") i = true := by
                rwa [if_pos h3, hgd] at hflag'
              exact decodeProblemLoop_panics_runid cols rest (idx + 1)
                { res with OK := c == "OK" } err i hi hname' hlen' hfl
          · rw [if_neg h3]
            by_cases h4 : n = "Run ID"
            · rw [if_pos h4]
              by_cases hOK : res.OK = true
              · rw [if_pos hOK]
                cases hget : cols.get? idx with
                | none => rfl
                | some c =>
                  exact decodeProblemLoop_panics_runid cols rest (idx + 1)
                    { res with RunID := (atoiGo c).1 }
                    ((atoiGo c).2.map (fun m => "decode run id: " ++ m))
                    i hi hname' hlen' (hfl0 h3)
              · rw [if_neg hOK]
                exact decodeProblemLoop_panics_runid cols rest (idx + 1) res err
                  i hi hname' hlen' (hfl0 h3)
            · rw [if_neg h4]
              exact decodeProblemLoop_panics_runid cols rest (idx + 1) res err
                i hi hname' hlen' (hfl0 h3)

/-- If every matched out-of-range column is a "Run ID" column reached with
the acceptance flag false, the decode loop never panics: the flag check
skips each such cell access. -/
theorem decodeProblemLoop_no_panic (cols : List String) :
    ∀ (names : List String) (idx : Nat) (res : Problem) (err : Option String),
      (∀ j, (hj : j < names.length) → cols.length ≤ idx + j →
        names[j] ∈ problemLabels →
        names[j] = "Run ID" ∧ flagAt cols names idx res.OK j = false) →
      decodeProblemLoop cols names idx res err ≠ .panicked
  | [], idx, res, err, _ => by cases err <;> simp [decodeProblemLoop]
  | n :: rest, idx, res, err, h => by
    have htail : ∀ (b' : Bool),
        ((if n = "Status" then (cols.getD idx "") == "OK" else res.OK) = b') →
        ∀ j, (hj : j < rest.length) → cols.length ≤ (idx + 1) + j →
          rest[j] ∈ problemLabels →
          rest[j] = "Run ID" ∧ flagAt cols rest (idx + 1) b' j = false := by
      intro b' hb' j hj hlen hmem
      have hj1 : j + 1 < (n :: rest).length := by
        simpa using Nat.succ_lt_succ hj
      have he : (n :: rest)[j + 1] = rest[j] := List.getElem_cons_succ ..
      have h1 := h (j + 1) hj1 (by omega) (by rwa [he])
      rw [he] at h1
      refine ⟨h1.1, ?_⟩
      have hf := h1.2
      simp only [flagAt] at hf
      rwa [hb'] at hf
    have hlen_of_none : cols.get? idx = none → cols.length ≤ idx := by
      intro hget
      by_contra hlt
      push_neg at hlt
      rw [List.get?_eq_getElem?, List.getElem?_eq_getElem hlt] at hget
      exact Option.noConfusion hget
    simp only [decodeProblemLoop]
    by_cases h1 : n = "Short name"
    · rw [if_pos h1]
      cases hget : cols.get? idx with
      | none =>
        have h0 := h 0 (by simp) (by have := hlen_of_none hget; omega)
          (by simp [h1, problemLabels])
        have hn : n = "Run ID" := by simpa using h0.1
        rw [h1] at hn
        exact absurd hn (by decide)
      | some c =>
        exact decodeProblemLoop_no_panic cols rest (idx + 1) { res with ID := c } err
          (htail res.OK (by simp [h1]))
    · rw [if_neg h1]
      by_cases h2 : n = "Long name"
      · rw [if_pos h2]
        cases hget : cols.get? idx with
        | none =>
          have h0 := h 0 (by simp) (by have := hlen_of_none hget; omega)
            (by simp [h2, problemLabels])
          have hn : n = "Run ID" := by simpa using h0.1
          rw [h2] at hn
          exact absurd hn (by decide)
        | some c =>
          exact decodeProblemLoop_no_panic cols rest (idx + 1) { res with Name := c } err
            (htail res.OK (by simp [h2]))
      · rw [if_neg h2]
        by_cases h3 : n = "Status"
        · rw [if_pos h3]
          cases hget : cols.get? idx with
          | none =>
            have h0 := h 0 (by simp) (by have := hlen_of_none hget; omega)
              (by simp [h3, problemLabels])
            have hn : n = "Run ID" := by simpa using h0.1
            rw [h3] at hn
            exact absurd hn (by decide)
          | some c =>
            have hgd : cols.getD idx "" = c := by
              rw [List.getD_eq_getElem?_getD, ← List.get?_eq_getElem?, hget]
              rfl
            exact decodeProblemLoop_no_panic cols rest (idx + 1)
              { res with OK := c == "OK" } err
              (htail (c == "OK") (by rw [if_pos h3, hgd]))
        · rw [if_neg h3]
          by_cases h4 : n = "Run ID"
          · rw [if_pos h4]
            by_cases hOK : res.OK = true
            · rw [if_pos hOK]
              cases hget : cols.get? idx with
              | none =>
                have h0 := h 0 (by simp) (by have := hlen_of_none hget; omega)
                  (by simp [h4, problemLabels])
                have hf := h0.2
                simp only [flagAt] at hf
                rw [hOK] at hf
                exact absurd hf (by decide)
              | some c =>
                exact decodeProblemLoop_no_panic cols rest (idx + 1)
                  { res with RunID := (atoiGo c).1 }
                  ((atoiGo c).2.map (fun m => "decode run id: " ++ m))
                  (htail res.OK (by rw [if_neg h3]))
            · rw [if_neg hOK]
              exact decodeProblemLoop_no_panic cols rest (idx + 1) res err
                (htail res.OK (by rw [if_neg h3]))
          · rw [if_neg h4]
            exact decodeProblemLoop_no_panic cols rest (idx + 1) res err
              (htail res.OK (by rw [if_neg h3]))

/-- An out-of-range matched "Run ID" column in a row whose status has been
read as accepted makes `decodeProblem` panic: either an earlier out-of-range
"Status" column already panics, or the loop reaches the "Run ID" column with
the acceptance flag set and indexes past the row. -/
theorem decodeProblem_panics_runid {names cols : List String} {j : Nat}
    (hj : j < names.length) (hname : names[j] = "Run ID")
    (hok : statusReadBefore names cols j = true) (hlen : cols.length ≤ j) :
    decodeProblem names cols = .panicked := by
  by_cases hex : ∃ k, k < j ∧ cols.length ≤ k ∧ names.getD k "" = "Status"
  · obtain ⟨k, hkj, hkc, hks⟩ := hex
    have hk : k < names.length := by omega
    have hks' : names[k] = "Status" := by
      rwa [List.getD_eq_getElem names "" hk] at hks
    exact decodeProblemLoop_panics cols names 0 {} none k hk
      (by rw [hks']; decide) (by omega)
  · push_neg at hex
    have hbridge : flagAt cols names 0 false j = statusReadBefore names cols j :=
      flagAt_statusReadBefore names cols j (fun k hk hkj hkc hs =>
        hex k hkj hkc (by rw [List.getD_eq_getElem names "" hk]; exact hs))
    exact decodeProblemLoop_panics_runid cols names 0 {} none j hj hname (by omega)
      (show flagAt cols names 0 false j = true by rw [hbridge]; exact hok)

/-- If every matched out-of-range column of the header is a "Run ID" column
in a row whose status has not been read as accepted by then, `decodeProblem`
does not panic. -/
theorem decodeProblem_no_panic {names cols : List String}
    (h : ∀ j, (hj : j < names.length) → cols.length ≤ j → names[j] ∈ problemLabels →
      names[j] = "Run ID" ∧ statusReadBefore names cols j = false) :
    decodeProblem names cols ≠ .panicked := by
  refine decodeProblemLoop_no_panic cols names 0 {} none ?_
  intro j hj hlen hmem
  obtain ⟨hrun, hflag⟩ := h j hj (by omega) hmem
  refine ⟨hrun, ?_⟩
  have hbridge : flagAt cols names 0 false j = statusReadBefore names cols j :=
    flagAt_statusReadBefore names cols j (fun k hk hkj hkc hs => by
      have hk2 := h k hk (by omega) (by rw [hs]; decide)
      rw [hs] at hk2
      exact absurd hk2.1 (by decide))
  show flagAt cols names 0 false j = false
  rw [hbridge]
  exact hflag

/-! ## Claims about the table decoder (C2, C6, C10) -/

/-- **C2**: the run-identifier cell is numerically parsed only when the
row's status cell has been read as accepted.  (1) If every "Run ID" column
occurs while the status has not been read as accepted, an unparseable
run-id value produces no error and decoding succeeds.  (2) If the status
has been read as accepted before the (last) "Run ID" column and that cell
does not parse, decoding fails with the wrapped `decode run id` error.
(3) At stage level such a failing row aborts decoding of the whole table:
the stage returns the row's error, logs it with that row's header/column
context, and decodes no later row. -/
theorem claim_C2 :
    (∀ names cols, names.length ≤ cols.length →
      (∀ j, (hj : j < names.length) → names[j] = "Run ID" →
        statusReadBefore names cols j = false) →
      ∃ p, decodeProblem names cols = .ok p) ∧
    (∀ names cols j m, names.length ≤ cols.length →
      ∀ (hj : j < names.length), names[j] = "Run ID" →
      statusReadBefore names cols j = true →
      (atoiGo (cols.getD j "")).2 = some m →
      (∀ k, (hk : k < names.length) → j < k → names[k] ≠ "Run ID") →
      decodeProblem names cols = .failed ("decode run id: " ++ m)) ∧
    (∀ (d : ProblemsDoc) (hd bad : PRow) (pre post : List PRow) (m : String),
      d.rows = hd :: (pre ++ bad :: post) →
      (∀ r ∈ pre, ∃ p, decodeProblem hd.cells r.cells = .ok p) →
      decodeProblem hd.cells bad.cells = .failed m →
      (problemsEmit d).outcome = .failed m ∧
        (problemsEmit d).logs = [⟨m, hd.cells, bad.cells⟩] ∧
        (problemsEmit d).problems =
          pre.filterMap (fun r => (decodeProblem hd.cells r.cells).toOption)) := by
  refine ⟨fun names cols hlen h => decodeProblem_ok_of_skip hlen h,
    fun names cols j m hlen hj hname hok hbad hlast =>
      decodeProblem_failed_of_badRunID hlen hj hname hok hbad hlast,
    fun d hd bad pre post m hrows hok hbad => ?_⟩
  have := problemsLoop_abort pre post hok hbad
  simp [problemsEmit, hrows, this]

/-- Witness for C2: a non-accepted row with an unparseable run id decodes
without error; an accepted row with a non-numeric run id fails and aborts a
concrete two-row table with exactly one context-carrying log entry. -/
theorem claim_C2_witness :
    (∃ p, decodeProblem ["Status", "Run ID"] ["WA", "zz"] = .ok p) ∧
    decodeProblem ["Status", "Run ID"] ["OK", "xx"] =
      .failed ("decode run id: strconv.Atoi: parsing " ++ goQuote "xx" ++ ": invalid syntax") ∧
    ((problemsEmit ⟨[⟨["Status", "Run ID"], "hdr"⟩, ⟨["OK", "xx"], "row"⟩]⟩).outcome =
        .failed ("decode run id: strconv.Atoi: parsing " ++ goQuote "xx" ++ ": invalid syntax") ∧
      (problemsEmit ⟨[⟨["Status", "Run ID"], "hdr"⟩, ⟨["OK", "xx"], "row"⟩]⟩).logs =
        [⟨"decode run id: strconv.Atoi: parsing " ++ goQuote "xx" ++ ": invalid syntax",
          ["Status", "Run ID"], ["OK", "xx"]⟩] ∧
      (problemsEmit ⟨[⟨["Status", "Run ID"], "hdr"⟩, ⟨["OK", "xx"], "row"⟩]⟩).problems = []) := by
  refine ⟨claim_C2.1 ["Status", "Run ID"] ["WA", "zz"] (by decide) ?_, ?_, ?_⟩
  · intro j hj hname
    have hj2 : j < 2 := by simpa using hj
    interval_cases j
    · simp at hname
    · decide
  · exact claim_C2.2.1 ["Status", "Run ID"] ["OK", "xx"] 1
      ("strconv.Atoi: parsing " ++ goQuote "xx" ++ ": invalid syntax")
      (by decide) (by decide) (by decide) (by decide) (by decide)
      (fun k hk hgt => by
        have hk2 : k < 2 := by simpa using hk
        omega)
  · have := claim_C2.2.2 ⟨[⟨["Status", "Run ID"], "hdr"⟩, ⟨["OK", "xx"], "row"⟩]⟩
      ⟨["Status", "Run ID"], "hdr"⟩ ⟨["OK", "xx"], "row"⟩ [] []
      ("decode run id: strconv.Atoi: parsing " ++ goQuote "xx" ++ ": invalid syntax")
      rfl (by intro r hr; exact absurd hr (List.not_mem_nil r))
      (by decide)
    simpa using this

/-- **C6**: missing expected columns are not an error by themselves and
leave the corresponding field at its zero value; unknown columns are
ignored.  (1) On a successful decode, each absent known label leaves its
field at the zero value.  (2) Without a "Run ID" column no decode error is
possible at all.  (3) A decode error implies a "Run ID" column was present
(absence of a label never causes the error).  (4) The decode result depends
only on the known-label header/cell pairs, so unknown-label columns are
ignored. -/
theorem claim_C6 :
    (∀ names cols p, names.length ≤ cols.length →
      decodeProblem names cols = .ok p →
      ("Short name" ∉ names → p.ID = "") ∧
      ("Long name" ∉ names → p.Name = "") ∧
      ("Status" ∉ names → p.OK = false) ∧
      ("Run ID" ∉ names → p.RunID = 0)) ∧
    (∀ names cols, names.length ≤ cols.length → "Run ID" ∉ names →
      ∃ p, decodeProblem names cols = .ok p) ∧
    (∀ names cols m, names.length ≤ cols.length →
      decodeProblem names cols = .failed m → "Run ID" ∈ names) ∧
    (∀ names cols names2 cols2, names.length ≤ cols.length →
      names2.length ≤ cols2.length →
      (names.zip cols).filter (fun q => q.1 ∈ problemLabels) =
        (names2.zip cols2).filter (fun q => q.1 ∈ problemLabels) →
      decodeProblem names cols = decodeProblem names2 cols2) := by
  refine ⟨?_, ?_, ?_, fun names cols names2 cols2 h1 h2 heq =>
    decodeProblem_known_pairs h1 h2 heq⟩
  · intro names cols p hlen hok
    rw [decodeProblem_eq_foldl hlen, decodeFinish_eq_ok] at hok
    obtain ⟨-, hp⟩ := hok
    subst hp
    have hnot : ∀ lbl : String, lbl ∉ names →
        ∀ q ∈ names.zip cols, q.1 ≠ lbl := by
      intro lbl hlbl q hq heq
      exact hlbl (heq ▸ (List.of_mem_zip hq).1)
    refine ⟨fun h => ?_, fun h => ?_, fun h => ?_, fun h => ?_⟩
    · exact foldl_decodePPair_ID _ _ (hnot _ h)
    · exact foldl_decodePPair_Name _ _ (hnot _ h)
    · exact foldl_decodePPair_OK_nostatus _ _ (hnot _ h)
    · exact foldl_decodePPair_RunID _ _ (hnot _ h)
  · intro names cols hlen hno
    rw [decodeProblem_eq_foldl hlen]
    have herr := foldl_decodePPair_err_norun (names.zip cols) ({}, none)
      (fun q hq heq => hno (heq ▸ (List.of_mem_zip hq).1))
    exact ⟨_, decodeFinish_of_noerr herr⟩
  · intro names cols m hlen hfail
    by_contra hno
    rw [decodeProblem_eq_foldl hlen] at hfail
    have herr := foldl_decodePPair_err_norun (names.zip cols) ({}, none)
      (fun q hq heq => hno (heq ▸ (List.of_mem_zip hq).1))
    rw [decodeFinish_of_noerr herr] at hfail
    exact GoResult.noConfusion hfail

/-- Witness for C6: a header missing "Long name" and "Run ID" (and carrying
an unknown column) decodes with those fields at their zero values and no
error; inserting the unknown column does not change the result. -/
theorem claim_C6_witness :
    (decodeProblem ["Short name", "Bogus", "Status"] ["A", "zz", "OK"] =
        .ok { ID := "A", OK := true } ∧
      ({ ID := "A", OK := true } : Problem).Name = "" ∧
      ({ ID := "A", OK := true } : Problem).RunID = 0) ∧
    (∃ p, decodeProblem ["Short name", "Bogus", "Status"] ["A", "zz", "OK"] = .ok p) ∧
    decodeProblem ["Short name", "Bogus", "Status"] ["A", "zz", "OK"] =
      decodeProblem ["Short name", "Status"] ["A", "OK"] := by
  have hdec : decodeProblem ["Short name", "Bogus", "Status"] ["A", "zz", "OK"] =
      .ok { ID := "A", OK := true } := by decide
  refine ⟨⟨hdec, ?_, ?_⟩, claim_C6.2.1 ["Short name", "Bogus", "Status"] ["A", "zz", "OK"]
    (by decide) (by decide), claim_C6.2.2.2 ["Short name", "Bogus", "Status"] ["A", "zz", "OK"]
    ["Short name", "Status"] ["A", "OK"] (by decide) (by decide) (by decide)⟩
  · exact (claim_C6.1 _ _ _ (by decide) hdec).2.1 (by decide)
  · exact (claim_C6.1 _ _ _ (by decide) hdec).2.2.2 (by decide)

/-- **C10 (counterexample)**: a data row with fewer cells than the position
of the known header label "Run ID" does *not* panic: the "Run ID" case
checks the acceptance flag (still false) and `continue`s before indexing
the cell slice, so the decoder returns a zero-value record instead. -/
theorem claim_C10_counterexample :
    decodeProblem ["Run ID"] [] = .ok {} ∧
      decodeProblem ["Run ID"] [] ≠ .panicked := by
  constructor <;> decide

/-- **C10 (amended)**: decoding panics on any data row with fewer cells
than the position of a matched header label whose cell is actually read -
the three unconditional labels always, and a "Run ID" column whenever the
row's status has been read as accepted by then - *except* that a "Run ID"
column in a row whose status has not been read as accepted is skipped by
the acceptance-flag check before the cell access, so a row whose only
matched out-of-range columns are such skipped "Run ID" columns cannot
panic; `decodeSubmission`'s three labels are all unconditional, so for it
every matched out-of-range label panics. -/
theorem claim_C10_amended :
    (∀ names cols j, (hj : j < names.length) →
      names[j] ∈ (["Short name", "Long name", "Status"] : List String) →
      cols.length ≤ j → decodeProblem names cols = .panicked) ∧
    (∀ names cols j, (hj : j < names.length) →
      names[j] = "Run ID" → statusReadBefore names cols j = true →
      cols.length ≤ j → decodeProblem names cols = .panicked) ∧
    (∀ names cols,
      (∀ j, (hj : j < names.length) → cols.length ≤ j → names[j] ∈ problemLabels →
        names[j] = "Run ID" ∧ statusReadBefore names cols j = false) →
      decodeProblem names cols ≠ .panicked) ∧
    (∀ names cols j, (hj : j < names.length) →
      names[j] ∈ (["Problem", "Language", "Result"] : List String) →
      cols.length ≤ j → decodeSubmission names cols = .panicked) ∧
    decodeProblem ["Run ID"] [] = .ok {} := by
  refine ⟨fun names cols j hj hmem hlen =>
      decodeProblemLoop_panics cols names 0 {} none j hj hmem (by omega),
    fun names cols j hj hname hok hlen =>
      decodeProblem_panics_runid hj hname hok hlen,
    fun names cols h => decodeProblem_no_panic h,
    fun names cols j hj hmem hlen =>
      decodeSubmissionLoop_panics cols names 0 {} j hj hmem (by omega),
    by decide⟩

/-- Witness for C10 (amended): a 4-column header over a 2-cell row panics
at the "Status" column; an accepted row panics at an out-of-range "Run ID"
column; a not-accepted row whose only out-of-range matched column is
"Run ID" does not panic; the submissions decoder panics at an out-of-range
"Result". -/
theorem claim_C10_witness :
    decodeProblem ["Short name", "Long name", "Status", "Run ID"] ["A", "B"] =
        .panicked ∧
      decodeProblem ["Status", "A", "B", "Run ID"] ["OK", "x"] = .panicked ∧
      decodeProblem ["Status", "Run ID"] ["WA"] ≠ .panicked ∧
      decodeSubmission ["Problem", "Language", "Result"] ["A", "B"] = .panicked := by
  refine ⟨claim_C10_amended.1 ["Short name", "Long name", "Status", "Run ID"]
      ["A", "B"] 2 (by decide) (by decide) (by decide),
    claim_C10_amended.2.1 ["Status", "A", "B", "Run ID"] ["OK", "x"] 3
      (by decide) (by decide) (by decide) (by decide),
    claim_C10_amended.2.2.1 ["Status", "Run ID"] ["WA"] ?_,
    claim_C10_amended.2.2.2.1 ["Problem", "Language", "Result"] ["A", "B"] 2
      (by decide) (by decide) (by decide)⟩
  intro j hj hlen hmem
  have hj2 : j < 2 := by simpa using hj
  have hle : 1 ≤ j := by simpa using hlen
  have hj1 : j = 1 := by omega
  subst hj1
  exact ⟨rfl, by decide⟩

/-! ## Lemmas about the Submissions stage -/

/-- `subOfRow` does not change the problem identifier that
`decodeSubmission` produced. -/
theorem subOfRow_problemID {names : List String} {r : SRow} {s : Submission}
    (h : decodeSubmission names r.cells = .ok s) :
    (subOfRow names r).problemID = s.problemID := by
  simp [subOfRow, h]

/-- One step of the data-row loop on a fine row: decode, attach the href,
then either skip (known key) or retain. -/
theorem subsLoop_fine_step {names : List String} {r : SRow} (rs : List SRow)
    (subs : List Submission) (keys : List String) (hfine : RowFine names r) :
    subsLoop names (r :: rs) subs keys =
      if keys.contains (subOfRow names r).problemID then subsLoop names rs subs keys
      else subsLoop names rs (subs ++ [subOfRow names r])
        (keys ++ [(subOfRow names r).problemID]) := by
  obtain ⟨⟨s, hs⟩, h, hh, hok⟩ := hfine
  have hsub : subOfRow names r = { s with sourceHref := h } := by
    simp [subOfRow, hs, hh]
  simp only [subsLoop, hs, hh, hok, if_true, hsub]

/-- The data-row loop on all-fine rows terminates normally and performs
exactly the first-occurrence dedup of the decoded rows. -/
theorem subsLoop_fine {names : List String} :
    ∀ (rows : List SRow) (subs : List Submission) (keys : List String),
      (∀ r ∈ rows, RowFine names r) →
      subsLoop names rows subs keys =
        .okL (subs ++ (firstDedup (rows.map (subOfRow names)) keys).1)
          ((firstDedup (rows.map (subOfRow names)) keys).2)
  | [], subs, keys, _ => by simp [subsLoop, firstDedup]
  | r :: rs, subs, keys, h => by
    have hfine := h r (List.mem_cons_self r rs)
    have ih := fun subs' keys' =>
      subsLoop_fine rs subs' keys' (fun q hq => h q (List.mem_cons_of_mem r hq))
    rw [subsLoop_fine_step rs subs keys hfine]
    by_cases hc : keys.contains (subOfRow names r).problemID
    · rw [if_pos hc, ih]
      simp only [List.map_cons, firstDedup, hc, if_true]
    · rw [if_neg hc, ih]
      simp only [List.map_cons, firstDedup, hc, if_false]
      rw [List.append_assoc]
      rfl

/-- The data-row loop breaks with `href to source not found` at the first
row (duplicate or not) that decodes but lacks a "View" href, with rows
after it never examined. -/
theorem subsLoop_abort_nohref {names : List String} {bad : SRow}
    (hdec : ∃ s, decodeSubmission names bad.cells = .ok s)
    (hno : bad.viewHref = none) :
    ∀ (pre post : List SRow) (subs : List Submission) (keys : List String),
      (∀ r ∈ pre, RowFine names r) →
      ∃ acc, subsLoop names (pre ++ bad :: post) subs keys =
        .failedL acc "href to source not found"
  | [], post, subs, keys, _ => by
    obtain ⟨s, hs⟩ := hdec
    exact ⟨subs, by simp [subsLoop, hs, hno]⟩
  | r :: rs, post, subs, keys, h => by
    have hfine := h r (List.mem_cons_self r rs)
    rw [List.cons_append, subsLoop_fine_step _ subs keys hfine]
    by_cases hc : keys.contains (subOfRow names r).problemID
    · rw [if_pos hc]
      exact subsLoop_abort_nohref hdec hno rs post subs keys
        (fun q hq => h q (List.mem_cons_of_mem r hq))
    · rw [if_neg hc]
      exact subsLoop_abort_nohref hdec hno rs post _ _
        (fun q hq => h q (List.mem_cons_of_mem r hq))

/-- The data-row loop breaks with the `url.Parse` error at the first row
whose "View" href does not parse. -/
theorem subsLoop_abort_badparse {names : List String} {bad : SRow} {h0 : String}
    (hdec : ∃ s, decodeSubmission names bad.cells = .ok s)
    (hhref : bad.viewHref = some h0) (hbadp : urlParseOk h0 = false) :
    ∀ (pre post : List SRow) (subs : List Submission) (keys : List String),
      (∀ r ∈ pre, RowFine names r) →
      ∃ acc, subsLoop names (pre ++ bad :: post) subs keys =
        .failedL acc (urlParseErr h0)
  | [], post, subs, keys, _ => by
    obtain ⟨s, hs⟩ := hdec
    exact ⟨subs, by simp [subsLoop, hs, hhref, hbadp]⟩
  | r :: rs, post, subs, keys, h => by
    have hfine := h r (List.mem_cons_self r rs)
    rw [List.cons_append, subsLoop_fine_step _ subs keys hfine]
    by_cases hc : keys.contains (subOfRow names r).problemID
    · rw [if_pos hc]
      exact subsLoop_abort_badparse hdec hhref hbadp rs post subs keys
        (fun q hq => h q (List.mem_cons_of_mem r hq))
    · rw [if_neg hc]
      exact subsLoop_abort_badparse hdec hhref hbadp rs post _ _
        (fun q hq => h q (List.mem_cons_of_mem r hq))

/-- The retained submissions are a sublist (same order) of the decoded
rows. -/
theorem firstDedup_sublist :
    ∀ (l : List Submission) (seen : List String),
      List.Sublist (firstDedup l seen).1 l
  | [], _ => List.Sublist.refl _
  | s :: rest, seen => by
    by_cases hc : seen.contains s.problemID
    · simp only [firstDedup, hc, if_true]
      exact List.Sublist.cons s (firstDedup_sublist rest seen)
    · simp only [firstDedup, hc, if_false]
      exact List.Sublist.cons₂ s (firstDedup_sublist rest (seen ++ [s.problemID]))

/-- The retained submissions carry identifiers outside the seen set, and
pairwise distinct identifiers. -/
theorem firstDedup_nodup :
    ∀ (l : List Submission) (seen : List String),
      (∀ s ∈ (firstDedup l seen).1, s.problemID ∉ seen) ∧
        ((firstDedup l seen).1.map Submission.problemID).Nodup
  | [], _ => by simp [firstDedup]
  | s :: rest, seen => by
    by_cases hc : seen.contains s.problemID
    · simp only [firstDedup, hc, if_true]
      exact firstDedup_nodup rest seen
    · have hc' : seen.contains s.problemID = false := by simpa using hc
      simp only [firstDedup, hc', Bool.false_eq_true, if_false]
      obtain ⟨hout, hnd⟩ := firstDedup_nodup rest (seen ++ [s.problemID])
      have hsout : s.problemID ∉ seen := by simpa using hc
      refine ⟨?_, ?_⟩
      · intro t ht
        rcases List.mem_cons.mp ht with h | h
        · subst h; exact hsout
        · intro hmem
          exact hout t h (List.mem_append_left _ hmem)
      · rw [List.map_cons, List.nodup_cons]
        refine ⟨?_, hnd⟩
        intro hmem
        obtain ⟨t, ht, hpt⟩ := List.mem_map.mp hmem
        exact hout t ht (by simp [hpt])

/-- An identifier is retained exactly when some decoded row carries it and
it is not in the seen set. -/
theorem firstDedup_mem_keys :
    ∀ (l : List Submission) (seen : List String) (p : String),
      p ∈ (firstDedup l seen).1.map Submission.problemID ↔
        p ∈ l.map Submission.problemID ∧ p ∉ seen
  | [], seen, p => by simp [firstDedup]
  | s :: rest, seen, p => by
    by_cases hc : seen.contains s.problemID
    · simp only [firstDedup, hc, if_true, List.map_cons, List.mem_cons]
      rw [firstDedup_mem_keys rest seen p]
      have hs : s.problemID ∈ seen := by simpa using hc
      constructor
      · rintro ⟨h1, h2⟩; exact ⟨Or.inr h1, h2⟩
      · rintro ⟨h1 | h1, h2⟩
        · exact absurd (h1 ▸ hs) h2
        · exact ⟨h1, h2⟩
    · have hc' : seen.contains s.problemID = false := by simpa using hc
      simp only [firstDedup, hc', Bool.false_eq_true, if_false, List.map_cons, List.mem_cons]
      rw [firstDedup_mem_keys rest (seen ++ [s.problemID]) p]
      have hs : s.problemID ∉ seen := by simpa using hc
      constructor
      · rintro (h1 | ⟨h1, h2⟩)
        · exact ⟨Or.inl h1, h1 ▸ hs⟩
        · simp only [List.mem_append, List.mem_singleton, not_or] at h2
          exact ⟨Or.inr h1, h2.1⟩
      · rintro ⟨h1 | h1, h2⟩
        · exact Or.inl h1
        · by_cases hps : p = s.problemID
          · exact Or.inl hps
          · refine Or.inr ⟨h1, ?_⟩
            simp only [List.mem_append, List.mem_singleton, not_or]
            exact ⟨h2, hps⟩

/-- Every retained submission is the first-encountered decoded row with its
identifier. -/
theorem firstDedup_first_occurrence :
    ∀ (l : List Submission) (seen : List String) (s : Submission),
      s ∈ (firstDedup l seen).1 →
      s.problemID ∉ seen ∧
        ∃ i, ∃ (hi : i < l.length), l[i] = s ∧
          ∀ k, (hk : k < i) → (l.get ⟨k, Nat.lt_trans hk hi⟩).problemID ≠ s.problemID
  | [], _, s, hmem => absurd hmem (by simp [firstDedup])
  | x :: rest, seen, s, hmem => by
    by_cases hc : seen.contains x.problemID
    · simp only [firstDedup, hc, if_true] at hmem
      obtain ⟨hout, i, hi, hieq, hfirst⟩ := firstDedup_first_occurrence rest seen s hmem
      have hx : x.problemID ∈ seen := by simpa using hc
      refine ⟨hout, i + 1, by simpa using Nat.succ_lt_succ hi, by simpa using hieq, ?_⟩
      intro k hk
      cases k with
      | zero =>
        intro heq
        simp only [List.get_eq_getElem, List.getElem_cons_zero] at heq
        exact hout (heq ▸ hx)
      | succ k' =>
        simp only [List.get_eq_getElem, List.getElem_cons_succ]
        exact hfirst k' (by omega)
    · have hc' : seen.contains x.problemID = false := by simpa using hc
      simp only [firstDedup, hc', Bool.false_eq_true, if_false] at hmem
      have hx : x.problemID ∉ seen := by simpa using hc
      rcases List.mem_cons.mp hmem with h | h
      · subst h
        exact ⟨hx, 0, by simp, by simp, fun k hk => absurd hk (by omega)⟩
      · obtain ⟨hout, i, hi, hieq, hfirst⟩ :=
          firstDedup_first_occurrence rest (seen ++ [x.problemID]) s h
        simp only [List.mem_append, List.mem_singleton, not_or] at hout
        refine ⟨hout.1, i + 1, by simpa using Nat.succ_lt_succ hi, by simpa using hieq, ?_⟩
        intro k hk
        cases k with
        | zero =>
          simp only [List.get_eq_getElem, List.getElem_cons_zero]
          exact fun heq => hout.2 heq.symm
        | succ k' =>
          simp only [List.get_eq_getElem, List.getElem_cons_succ]
          exact hfirst k' (by omega)

/-- The submissions decode loop never touches the `source` field. -/
theorem decodeSubmissionLoop_source (cols : List String) :
    ∀ (names : List String) (idx : Nat) (res : Submission) (s : Submission),
      decodeSubmissionLoop cols names idx res = .ok s → s.source = res.source
  | [], _, res, s, h => by
    simp only [decodeSubmissionLoop, GoResult.ok.injEq] at h
    rw [← h]
  | n :: rest, idx, res, s, h => by
    have ih := decodeSubmissionLoop_source cols rest (idx + 1)
    simp only [decodeSubmissionLoop] at h
    split_ifs at h
    · cases hget : cols.get? idx with
      | none => simp only [hget] at h; cases h
      | some c => simp only [hget] at h; exact (ih _ _ h).trans rfl
    · cases hget : cols.get? idx with
      | none => simp only [hget] at h; cases h
      | some c => simp only [hget] at h; exact (ih _ _ h).trans rfl
    · cases hget : cols.get? idx with
      | none => simp only [hget] at h; cases h
      | some c => simp only [hget] at h; exact (ih _ _ h).trans rfl
    · exact ih _ _ h

/-- A decoded row's submission has an unpopulated `source`. -/
theorem subOfRow_source (names : List String) (r : SRow) :
    (subOfRow names r).source = none := by
  unfold subOfRow
  cases h : decodeSubmission names r.cells with
  | ok s =>
    exact decodeSubmissionLoop_source _ names 0 {} s h
  | panicked => rfl
  | failed m => rfl

/-- `loadSource` when every fetch succeeds: all sources populated, one
fetch per submission in order, no error. -/
theorem loadSource_all_ok (fetch : String → Except String (List Nat)) :
    ∀ l : List Submission, (∀ s ∈ l, ∃ b, fetch s.sourceHref = .ok b) →
      loadSource fetch l =
        (l.map (fun s => { s with source := (fetch s.sourceHref).toOption }),
          l.map Submission.sourceHref, .ok ())
  | [], _ => rfl
  | s :: rest, h => by
    obtain ⟨b, hb⟩ := h s (List.mem_cons_self s rest)
    have ih := loadSource_all_ok fetch rest (fun q hq => h q (List.mem_cons_of_mem s hq))
    simp [loadSource, hb, ih, Except.toOption]

/-- `loadSource` at the first failing fetch: earlier submissions keep their
fetched bytes, exactly the prefix (failing URL included) was fetched, and
the stage error names the URL and the cause. -/
theorem loadSource_split (fetch : String → Except String (List Nat))
    {s : Submission} {e : String} :
    ∀ (pre post : List Submission), (∀ t ∈ pre, ∃ b, fetch t.sourceHref = .ok b) →
      fetch s.sourceHref = .error e →
      loadSource fetch (pre ++ s :: post) =
        (pre.map (fun t => { t with source := (fetch t.sourceHref).toOption }) ++ s :: post,
          pre.map Submission.sourceHref ++ [s.sourceHref],
          .failed ("fetch url: " ++ s.sourceHref ++ ": " ++ e))
  | [], post, _, he => by simp [loadSource, he]
  | t :: ts, post, h, he => by
    obtain ⟨b, hb⟩ := h t (List.mem_cons_self t ts)
    have ih := loadSource_split fetch ts post (fun q hq => h q (List.mem_cons_of_mem t hq)) he
    simp [loadSource, hb, ih, Except.toOption]

/-- Either every fetch in the list succeeds, or the list splits at the
first failing fetch. -/
theorem fetch_first_error (fetch : String → Except String (List Nat)) :
    ∀ l : List Submission,
      (∀ s ∈ l, ∃ b, fetch s.sourceHref = .ok b) ∨
        ∃ pre s post e, l = pre ++ s :: post ∧
          (∀ t ∈ pre, ∃ b, fetch t.sourceHref = .ok b) ∧
          fetch s.sourceHref = .error e
  | [] => Or.inl (by simp)
  | s :: rest => by
    cases hf : fetch s.sourceHref with
    | error e => exact Or.inr ⟨[], s, rest, e, rfl, by simp, hf⟩
    | ok b =>
      rcases fetch_first_error fetch rest with h | ⟨pre, t, post, e, heq, hpre, ht⟩
      · refine Or.inl fun q hq => ?_
        rcases List.mem_cons.mp hq with h1 | h1
        · exact ⟨b, h1 ▸ hf⟩
        · exact h q h1
      · refine Or.inr ⟨s :: pre, t, post, e, by rw [heq]; rfl, ?_, ht⟩
        intro q hq
        rcases List.mem_cons.mp hq with h1 | h1
        · exact ⟨b, h1 ▸ hf⟩
        · exact hpre q h1

/-- `loadSource` only writes the `source` field. -/
theorem loadSource_strip (fetch : String → Except String (List Nat)) :
    ∀ l : List Submission,
      ((loadSource fetch l).1).map stripSource = l.map stripSource
  | [] => rfl
  | s :: rest => by
    cases hf : fetch s.sourceHref with
    | error e => simp [loadSource, hf]
    | ok b =>
      have ih := loadSource_strip fetch rest
      simp only [loadSource, hf, List.map_cons, ih]
      rfl

/-- `loadSource` preserves the problem identifiers. -/
theorem loadSource_map_problemID (fetch : String → Except String (List Nat))
    (l : List Submission) :
    ((loadSource fetch l).1).map Submission.problemID = l.map Submission.problemID := by
  have h := loadSource_strip fetch l
  have h1 : ((loadSource fetch l).1).map Submission.problemID =
      (((loadSource fetch l).1).map stripSource).map Submission.problemID := by
    rw [List.map_map]; rfl
  have h2 : (l.map stripSource).map Submission.problemID = l.map Submission.problemID := by
    rw [List.map_map]; rfl
  rw [h1, h, h2]

/-- `loadSource` preserves the source hrefs. -/
theorem loadSource_map_sourceHref (fetch : String → Except String (List Nat))
    (l : List Submission) :
    ((loadSource fetch l).1).map Submission.sourceHref = l.map Submission.sourceHref := by
  have h := loadSource_strip fetch l
  have h1 : ((loadSource fetch l).1).map Submission.sourceHref =
      (((loadSource fetch l).1).map stripSource).map Submission.sourceHref := by
    rw [List.map_map]; rfl
  have h2 : (l.map stripSource).map Submission.sourceHref = l.map Submission.sourceHref := by
    rw [List.map_map]; rfl
  rw [h1, h, h2]

/-- The fetch attempts are an in-order prefix of the retained submissions'
hrefs. -/
theorem loadSource_fetched_prefix (fetch : String → Except String (List Nat)) :
    ∀ l : List Submission,
      ∃ t, l.map Submission.sourceHref = (loadSource fetch l).2.1 ++ t
  | [] => ⟨[], rfl⟩
  | s :: rest => by
    cases hf : fetch s.sourceHref with
    | error e => exact ⟨rest.map Submission.sourceHref, by simp [loadSource, hf]⟩
    | ok b =>
      obtain ⟨t, ht⟩ := loadSource_fetched_prefix fetch rest
      exact ⟨t, by simp [loadSource, hf]; exact ht⟩

/-- `SubmissionsEmitter.Emit` on a document whose data rows are all fine:
the stage performs the first-occurrence dedup and then `loadSource` on the
retained submissions. -/
theorem submissionsEmit_fine (fetch : String → Except String (List Nat))
    {d : SubsDoc} {hd : SRow} {rows : List SRow}
    (hrows : d.rows = hd :: rows) (hfine : ∀ r ∈ rows, RowFine hd.cells r) :
    submissionsEmit fetch d =
      ⟨(loadSource fetch (firstDedup (rows.map (subOfRow hd.cells)) []).1).1,
        (loadSource fetch (firstDedup (rows.map (subOfRow hd.cells)) []).1).2.1,
        (loadSource fetch (firstDedup (rows.map (subOfRow hd.cells)) []).1).2.2⟩ := by
  have hloop := subsLoop_fine rows [] [] hfine
  simp [submissionsEmit, hrows, hloop]

/-! ## Claims about the Submissions stage (C1, C3, C4, C5) -/

/-- **C1**: on a table whose data rows all decode and carry parseable
"View" links, the stage retains exactly one submission per distinct problem
identifier - the one from the first-encountered row with that identifier -
in original row order, and source bytes are fetched only for the retained
records (the fetch-attempt list is an in-order prefix of the retained
records' hrefs).  `decoded` below is the list of row-decoded submissions in
row order; `stripSource` clears the only field the fetch pass writes. -/
theorem claim_C1 (fetch : String → Except String (List Nat))
    (d : SubsDoc) (hd : SRow) (rows : List SRow)
    (hrows : d.rows = hd :: rows)
    (hfine : ∀ r ∈ rows, RowFine hd.cells r) :
    ((submissionsEmit fetch d).submissions.map Submission.problemID).Nodup ∧
    (∀ p, p ∈ (submissionsEmit fetch d).submissions.map Submission.problemID ↔
      p ∈ (rows.map (subOfRow hd.cells)).map Submission.problemID) ∧
    (∀ s ∈ (submissionsEmit fetch d).submissions,
      ∃ i, ∃ (hi : i < (rows.map (subOfRow hd.cells)).length),
        (rows.map (subOfRow hd.cells))[i] = stripSource s ∧
        ∀ k, (hk : k < i) →
          (((rows.map (subOfRow hd.cells)).get ⟨k, Nat.lt_trans hk hi⟩)).problemID ≠
            s.problemID) ∧
    List.Sublist ((submissionsEmit fetch d).submissions.map stripSource)
      (rows.map (subOfRow hd.cells)) ∧
    (∃ t, (submissionsEmit fetch d).submissions.map Submission.sourceHref =
      (submissionsEmit fetch d).fetched ++ t) := by
  have hemit := submissionsEmit_fine fetch hrows hfine
  set decoded := rows.map (subOfRow hd.cells) with hdec
  set retained := (firstDedup decoded []).1 with hret
  have hdecnone : ∀ t ∈ decoded, t.source = none := by
    intro t ht
    obtain ⟨r, hr, hrt⟩ := List.mem_map.mp ht
    rw [← hrt]
    exact subOfRow_source hd.cells r
  have hretnone : ∀ t ∈ retained, t.source = none := fun t ht =>
    hdecnone t ((firstDedup_sublist decoded []).subset ht)
  have hretstrip : retained.map stripSource = retained := by
    have hid : ∀ t ∈ retained, stripSource t = t := by
      intro t ht
      have hn := hretnone t ht
      cases t
      simp_all [stripSource]
    calc retained.map stripSource = retained.map id := List.map_congr_left hid
      _ = retained := List.map_id retained
  have hsubs : (submissionsEmit fetch d).submissions = (loadSource fetch retained).1 := by
    rw [hemit]
  have hfetched : (submissionsEmit fetch d).fetched = (loadSource fetch retained).2.1 := by
    rw [hemit]
  have hmap_pid : (submissionsEmit fetch d).submissions.map Submission.problemID =
      retained.map Submission.problemID := by
    rw [hsubs, loadSource_map_problemID]
  have hstrip : (submissionsEmit fetch d).submissions.map stripSource = retained := by
    rw [hsubs, loadSource_strip, hretstrip]
  refine ⟨?_, ?_, ?_, ?_, ?_⟩
  · rw [hmap_pid]
    exact (firstDedup_nodup decoded []).2
  · intro p
    rw [hmap_pid, firstDedup_mem_keys]
    simp
  · intro s hs
    have hmem : stripSource s ∈ retained := by
      rw [← hstrip]
      exact List.mem_map_of_mem stripSource hs
    obtain ⟨-, i, hi, hieq, hfirst⟩ :=
      firstDedup_first_occurrence decoded [] (stripSource s) hmem
    refine ⟨i, hi, hieq, fun k hk => ?_⟩
    have := hfirst k hk
    simpa [stripSource] using this
  · rw [hstrip]
    exact firstDedup_sublist decoded []
  · obtain ⟨t, ht⟩ := loadSource_fetched_prefix fetch retained
    refine ⟨t, ?_⟩
    rw [hsubs, loadSource_map_sourceHref, hfetched, ht]

/-- Witness for C1: submission rows `[P1, P2, P1, P3]` (all with "View"
links) yield exactly `[P1, P2, P3]` in that order, and bytes are fetched
only for their three hrefs, never for the dropped duplicate's `u3`. -/
theorem claim_C1_witness :
    (((submissionsEmit (fun _ => .ok [104])
        ⟨[⟨["Problem"], none⟩, ⟨["P1"], some "u1"⟩, ⟨["P2"], some "u2"⟩,
          ⟨["P1"], some "u3"⟩, ⟨["P3"], some "u4"⟩]⟩).submissions.map
            Submission.problemID).Nodup ∧
      (submissionsEmit (fun _ => .ok [104])
        ⟨[⟨["Problem"], none⟩, ⟨["P1"], some "u1"⟩, ⟨["P2"], some "u2"⟩,
          ⟨["P1"], some "u3"⟩, ⟨["P3"], some "u4"⟩]⟩).submissions.map
            Submission.problemID = ["P1", "P2", "P3"]) ∧
    (submissionsEmit (fun _ => .ok [104])
        ⟨[⟨["Problem"], none⟩, ⟨["P1"], some "u1"⟩, ⟨["P2"], some "u2"⟩,
          ⟨["P1"], some "u3"⟩, ⟨["P3"], some "u4"⟩]⟩).fetched =
      ["u1", "u2", "u4"] := by
  have hfine : ∀ r ∈ ([⟨["P1"], some "u1"⟩, ⟨["P2"], some "u2"⟩,
      ⟨["P1"], some "u3"⟩, ⟨["P3"], some "u4"⟩] : List SRow),
      RowFine ["Problem"] r := by
    intro r hr
    simp only [List.mem_cons, List.not_mem_nil, or_false] at hr
    rcases hr with rfl | rfl | rfl | rfl
    · exact ⟨⟨_, rfl⟩, "u1", rfl, rfl⟩
    · exact ⟨⟨_, rfl⟩, "u2", rfl, rfl⟩
    · exact ⟨⟨_, rfl⟩, "u3", rfl, rfl⟩
    · exact ⟨⟨_, rfl⟩, "u4", rfl, rfl⟩
  refine ⟨⟨(claim_C1 (fun _ => .ok [104]) _ ⟨["Problem"], none⟩ _ rfl hfine).1, ?_⟩, ?_⟩
  · decide
  · decide

/-- **C4**: if some data row decodes but lacks a "View" href, the stage
returns `href to source not found` and performs zero source fetches, even
for the fine rows preceding the defective one (validation precedes any
fetch). -/
theorem claim_C4 (fetch : String → Except String (List Nat))
    (d : SubsDoc) (hd bad : SRow) (pre post : List SRow)
    (hrows : d.rows = hd :: (pre ++ bad :: post))
    (hpre : ∀ r ∈ pre, RowFine hd.cells r)
    (hdec : ∃ s, decodeSubmission hd.cells bad.cells = .ok s)
    (hno : bad.viewHref = none) :
    (submissionsEmit fetch d).outcome = .failed "href to source not found" ∧
    (submissionsEmit fetch d).fetched = [] := by
  obtain ⟨acc, hacc⟩ := subsLoop_abort_nohref hdec hno pre post [] [] hpre
  constructor <;> simp [submissionsEmit, hrows, hacc]

/-- Witness for C4: rows `[P1, P2, P3]` where P2's "View" link is absent
make the stage fail with the link error and fetch nothing, not even P1's
source. -/
theorem claim_C4_witness :
    (submissionsEmit (fun _ => .ok [104])
        ⟨[⟨["Problem"], none⟩, ⟨["P1"], some "u1"⟩, ⟨["P2"], none⟩,
          ⟨["P3"], some "u3"⟩]⟩).outcome = .failed "href to source not found" ∧
    (submissionsEmit (fun _ => .ok [104])
        ⟨[⟨["Problem"], none⟩, ⟨["P1"], some "u1"⟩, ⟨["P2"], none⟩,
          ⟨["P3"], some "u3"⟩]⟩).fetched = [] := by
  refine claim_C4 (fun _ => .ok [104]) _ ⟨["Problem"], none⟩ ⟨["P2"], none⟩
    [⟨["P1"], some "u1"⟩] [⟨["P3"], some "u3"⟩] rfl ?_ ⟨_, rfl⟩ rfl
  intro r hr
  simp only [List.mem_cons, List.not_mem_nil, or_false] at hr
  subst hr
  exact ⟨⟨_, rfl⟩, "u1", rfl, rfl⟩

/-- **C5**: a duplicate row's "View" link is still located and parsed
before the row is dropped, and the duplicate's bytes are never fetched.
(1) A duplicate row without a "View" href fails the whole stage with the
link error (no fetches).  (2) A duplicate row whose href does not parse
fails the whole stage with the parse error (no fetches).  (3) On an
all-fine table the retained records carry pairwise-distinct identifiers and
every fetch attempt is for a retained record's href (in-order prefix), so a
dropped duplicate contributes no fetch. -/
theorem claim_C5 :
    (∀ (fetch : String → Except String (List Nat)) (d : SubsDoc)
      (hd bad : SRow) (pre post : List SRow) (s0 : Submission),
      d.rows = hd :: (pre ++ bad :: post) →
      (∀ r ∈ pre, RowFine hd.cells r) →
      decodeSubmission hd.cells bad.cells = .ok s0 →
      s0.problemID ∈ (pre.map (fun r => (subOfRow hd.cells r).problemID)) →
      bad.viewHref = none →
      (submissionsEmit fetch d).outcome = .failed "href to source not found" ∧
        (submissionsEmit fetch d).fetched = []) ∧
    (∀ (fetch : String → Except String (List Nat)) (d : SubsDoc)
      (hd bad : SRow) (pre post : List SRow) (s0 : Submission) (h0 : String),
      d.rows = hd :: (pre ++ bad :: post) →
      (∀ r ∈ pre, RowFine hd.cells r) →
      decodeSubmission hd.cells bad.cells = .ok s0 →
      s0.problemID ∈ (pre.map (fun r => (subOfRow hd.cells r).problemID)) →
      bad.viewHref = some h0 → urlParseOk h0 = false →
      (submissionsEmit fetch d).outcome = .failed (urlParseErr h0) ∧
        (submissionsEmit fetch d).fetched = []) ∧
    (∀ (fetch : String → Except String (List Nat)) (d : SubsDoc)
      (hd : SRow) (rows : List SRow),
      d.rows = hd :: rows →
      (∀ r ∈ rows, RowFine hd.cells r) →
      ((submissionsEmit fetch d).submissions.map Submission.problemID).Nodup ∧
        ∃ t, (submissionsEmit fetch d).submissions.map Submission.sourceHref =
          (submissionsEmit fetch d).fetched ++ t) := by
  refine ⟨?_, ?_, ?_⟩
  · intro fetch d hd bad pre post s0 hrows hpre hdec hdup hno
    obtain ⟨acc, hacc⟩ := subsLoop_abort_nohref ⟨s0, hdec⟩ hno pre post [] [] hpre
    constructor <;> simp [submissionsEmit, hrows, hacc]
  · intro fetch d hd bad pre post s0 h0 hrows hpre hdec hdup hh hbadp
    obtain ⟨acc, hacc⟩ := subsLoop_abort_badparse ⟨s0, hdec⟩ hh hbadp pre post [] [] hpre
    constructor <;> simp [submissionsEmit, hrows, hacc]
  · intro fetch d hd rows hrows hfine
    have hemit := submissionsEmit_fine fetch hrows hfine
    have hsubs : (submissionsEmit fetch d).submissions =
        (loadSource fetch (firstDedup (rows.map (subOfRow hd.cells)) []).1).1 := by
      rw [hemit]
    have hfetched : (submissionsEmit fetch d).fetched =
        (loadSource fetch (firstDedup (rows.map (subOfRow hd.cells)) []).1).2.1 := by
      rw [hemit]
    constructor
    · rw [hsubs, loadSource_map_problemID]
      exact (firstDedup_nodup (rows.map (subOfRow hd.cells)) []).2
    · obtain ⟨t, ht⟩ :=
        loadSource_fetched_prefix fetch (firstDedup (rows.map (subOfRow hd.cells)) []).1
      exact ⟨t, by rw [hsubs, loadSource_map_sourceHref, hfetched, ht]⟩

/-- Witness for C5: a duplicate P1 row with no "View" link fails the whole
stage with zero fetches; a duplicate P1 row with a control character in its
href fails with the parse error; and on the all-fine `[P1, P2, P1, P3]`
table the retained identifiers are distinct with fetches only for retained
hrefs. -/
theorem claim_C5_witness :
    ((submissionsEmit (fun _ => .ok [104])
        ⟨[⟨["Problem"], none⟩, ⟨["P1"], some "u1"⟩, ⟨["P1"], none⟩]⟩).outcome =
        .failed "href to source not found" ∧
      (submissionsEmit (fun _ => .ok [104])
        ⟨[⟨["Problem"], none⟩, ⟨["P1"], some "u1"⟩, ⟨["P1"], none⟩]⟩).fetched = []) ∧
    ((submissionsEmit (fun _ => .ok [104])
        ⟨[⟨["Problem"], none⟩, ⟨["P1"], some "u1"⟩,
          ⟨["P1"], some "u\n"⟩]⟩).outcome = .failed (urlParseErr "u\n") ∧
      (submissionsEmit (fun _ => .ok [104])
        ⟨[⟨["Problem"], none⟩, ⟨["P1"], some "u1"⟩,
          ⟨["P1"], some "u\n"⟩]⟩).fetched = []) ∧
    ((submissionsEmit (fun _ => .ok [104])
        ⟨[⟨["Problem"], none⟩, ⟨["P1"], some "u1"⟩, ⟨["P2"], some "u2"⟩,
          ⟨["P1"], some "u3"⟩, ⟨["P3"], some "u4"⟩]⟩).submissions.map
            Submission.problemID).Nodup := by
  have hpre1 : ∀ r ∈ ([⟨["P1"], some "u1"⟩] : List SRow), RowFine ["Problem"] r := by
    intro r hr
    simp only [List.mem_cons, List.not_mem_nil, or_false] at hr
    subst hr
    exact ⟨⟨_, rfl⟩, "u1", rfl, rfl⟩
  refine ⟨claim_C5.1 (fun _ => .ok [104]) _ ⟨["Problem"], none⟩ ⟨["P1"], none⟩
      [⟨["P1"], some "u1"⟩] [] _ rfl hpre1 rfl (by decide) rfl,
    claim_C5.2.1 (fun _ => .ok [104]) _ ⟨["Problem"], none⟩ ⟨["P1"], some "u\n"⟩
      [⟨["P1"], some "u1"⟩] [] _ "u\n" rfl hpre1 rfl (by decide) rfl (by decide),
    ?_⟩
  decide

/-- **C3 (counterexample)**: when the second of two source fetches fails,
the stage returns the fetch error but the exposed `Submissions` slice keeps
the first record's already-fetched `Source` bytes - the records are not
"all or none": a partially populated sequence is left behind on failure. -/
theorem claim_C3_counterexample :
    (submissionsEmit (fun u => if u = "u1" then .ok [104] else .error "boom")
        ⟨[⟨["Problem"], none⟩, ⟨["A"], some "u1"⟩, ⟨["B"], some "u2"⟩]⟩).outcome =
      .failed "fetch url: u2: boom" ∧
    (submissionsEmit (fun u => if u = "u1" then .ok [104] else .error "boom")
        ⟨[⟨["Problem"], none⟩, ⟨["A"], some "u1"⟩, ⟨["B"], some "u2"⟩]⟩).submissions.map
        Submission.source = [some [104], none] := by
  constructor <;> rfl

/-- **C3 (amended)**: on success every exposed record has `Source`
populated and exactly the retained hrefs were fetched in order; on a fetch
failure the stage returns `fetch url: <url>: <cause>` for the first failing
fetch, stops fetching there (the attempt list is the strict prefix plus the
failing URL), and leaves the exposed slice *partially* populated: records
before the failure keep their bytes, the failing record and all later ones
stay unpopulated.  No successful result is exposed, but the partially
populated slice is. -/
theorem claim_C3 (fetch : String → Except String (List Nat))
    (d : SubsDoc) (hd : SRow) (rows : List SRow)
    (hrows : d.rows = hd :: rows)
    (hfine : ∀ r ∈ rows, RowFine hd.cells r) :
    ((submissionsEmit fetch d).outcome = .ok () →
      (∀ s ∈ (submissionsEmit fetch d).submissions, (s.source).isSome = true) ∧
      (submissionsEmit fetch d).fetched =
        (submissionsEmit fetch d).submissions.map Submission.sourceHref) ∧
    (∀ m, (submissionsEmit fetch d).outcome = .failed m →
      ∃ pre s post e, (submissionsEmit fetch d).submissions = pre ++ s :: post ∧
        fetch s.sourceHref = .error e ∧
        m = "fetch url: " ++ s.sourceHref ++ ": " ++ e ∧
        (submissionsEmit fetch d).fetched =
          pre.map Submission.sourceHref ++ [s.sourceHref] ∧
        (∀ t ∈ pre, (t.source).isSome = true) ∧ s.source = none ∧
        ∀ t ∈ post, t.source = none) := by
  have hemit := submissionsEmit_fine fetch hrows hfine
  set retained := (firstDedup (rows.map (subOfRow hd.cells)) []).1 with hret
  have hretnone : ∀ t ∈ retained, t.source = none := by
    intro t ht
    have ht2 := (firstDedup_sublist (rows.map (subOfRow hd.cells)) []).subset ht
    obtain ⟨r, hr, hrt⟩ := List.mem_map.mp ht2
    rw [← hrt]
    exact subOfRow_source hd.cells r
  rcases fetch_first_error fetch retained with hall | ⟨pre, s, post, e, hsplit, hpreok, herr⟩
  · have hload := loadSource_all_ok fetch retained hall
    constructor
    · intro _
      constructor
      · intro s hs
        rw [hemit] at hs
        simp only [hload] at hs
        obtain ⟨t, ht, hts⟩ := List.mem_map.mp hs
        obtain ⟨b, hb⟩ := hall t ht
        rw [← hts]
        simp [hb, Except.toOption]
      · rw [hemit]
        simp only [hload]
        rw [List.map_map]
        rfl
    · intro m hm
      rw [hemit] at hm
      simp only [hload] at hm
      exact absurd hm (by simp)
  · have hload := loadSource_split fetch pre post hpreok herr
    rw [hsplit] at hemit
    constructor
    · intro hok
      rw [hemit] at hok
      simp only [hload] at hok
      exact absurd hok (by simp)
    · intro m hm
      rw [hemit] at hm
      simp only [hload] at hm
      have hmm : m = "fetch url: " ++ s.sourceHref ++ ": " ++ e := by
        have := hm.symm
        simpa using this
      refine ⟨pre.map (fun t => { t with source := (fetch t.sourceHref).toOption }),
        s, post, e, ?_, herr, hmm, ?_, ?_, ?_, ?_⟩
      · rw [hemit]
        simp [hload]
      · rw [hemit]
        simp only [hload]
        rw [List.map_map]
        rfl
      · intro t ht
        obtain ⟨t0, ht0, htt⟩ := List.mem_map.mp ht
        obtain ⟨b, hb⟩ := hpreok t0 ht0
        rw [← htt]
        simp [hb, Except.toOption]
      · exact hretnone s (hsplit ▸ List.mem_append_right pre (List.mem_cons_self s post))
      · intro t ht
        exact hretnone t
          (hsplit ▸ List.mem_append_right pre (List.mem_cons_of_mem s ht))

/-- Witness for C3 (amended): concrete success and failure runs.  With both
fetches succeeding every record is populated; with the second failing, the
slice splits exactly as the amended claim states. -/
theorem claim_C3_witness :
    ((∀ s ∈ (submissionsEmit (fun _ => .ok [104])
        ⟨[⟨["Problem"], none⟩, ⟨["A"], some "u1"⟩, ⟨["B"], some "u2"⟩]⟩).submissions,
      (s.source).isSome = true) ∧
      (submissionsEmit (fun _ => .ok [104])
        ⟨[⟨["Problem"], none⟩, ⟨["A"], some "u1"⟩, ⟨["B"], some "u2"⟩]⟩).fetched =
        (submissionsEmit (fun _ => .ok [104])
        ⟨[⟨["Problem"], none⟩, ⟨["A"], some "u1"⟩, ⟨["B"], some "u2"⟩]⟩).submissions.map
          Submission.sourceHref) ∧
    ∃ pre s post e,
      (submissionsEmit (fun u => if u = "u1" then .ok [104] else .error "boom")
        ⟨[⟨["Problem"], none⟩, ⟨["A"], some "u1"⟩, ⟨["B"], some "u2"⟩]⟩).submissions =
        pre ++ s :: post ∧
      (fun u => if u = "u1" then (Except.ok [104] : Except String (List Nat))
        else .error "boom") s.sourceHref = .error e ∧
      "fetch url: u2: boom" = "fetch url: " ++ s.sourceHref ++ ": " ++ e ∧
      (submissionsEmit (fun u => if u = "u1" then .ok [104] else .error "boom")
        ⟨[⟨["Problem"], none⟩, ⟨["A"], some "u1"⟩, ⟨["B"], some "u2"⟩]⟩).fetched =
        pre.map Submission.sourceHref ++ [s.sourceHref] ∧
      (∀ t ∈ pre, (t.source).isSome = true) ∧ s.source = none ∧
      ∀ t ∈ post, t.source = none := by
  have hfine : ∀ r ∈ ([⟨["A"], some "u1"⟩, ⟨["B"], some "u2"⟩] : List SRow),
      RowFine ["Problem"] r := by
    intro r hr
    simp only [List.mem_cons, List.not_mem_nil, or_false] at hr
    rcases hr with rfl | rfl
    · exact ⟨⟨_, rfl⟩, "u1", rfl, rfl⟩
    · exact ⟨⟨_, rfl⟩, "u2", rfl, rfl⟩
  constructor
  · exact (claim_C3 (fun _ => .ok [104]) _ ⟨["Problem"], none⟩ _ rfl hfine).1 rfl
  · exact (claim_C3 (fun u => if u = "u1" then .ok [104] else .error "boom") _
      ⟨["Problem"], none⟩ _ rfl hfine).2 "fetch url: u2: boom" rfl

/-! ## Claims about the Standings and Problems raw-capture stages (C8, C9) -/

/-- **C8 (counterexample)**: with two stylesheet-link elements, the stage
rewrites *both* (goquery `SetAttr` writes every element of the selection),
setting each to the resolution of the *first* element's href - the second
element's attribute changes, contradicting "rewrites exactly the first such
element's attribute". -/
theorem claim_C8_counterexample :
    (standingsEmit ⟨"http", "h", "/s.cgi", ""⟩
        ⟨[⟨"link", some ⟨"", "", "a.css", ""⟩⟩,
          ⟨"link", some ⟨"", "", "b.css", ""⟩⟩]⟩).1 =
      ⟨[⟨"link", some ⟨"http", "h", "/a.css", ""⟩⟩,
        ⟨"link", some ⟨"http", "h", "/a.css", ""⟩⟩]⟩ ∧
    (⟨"link", some ⟨"http", "h", "/a.css", ""⟩⟩ : SNode) ≠
      ⟨"link", some ⟨"", "", "b.css", ""⟩⟩ := by
  constructor
  · decide
  · decide

/-- **C8 (amended)**: if no element matches `link[href]` the stage succeeds
and the serialized snapshot is the unchanged document; otherwise it
resolves the *first* matched element's href against the page URL and writes
that one absolute URL onto *every* matched element's attribute, leaving
non-matched elements untouched. -/
theorem claim_C8 :
    (∀ (base : GoURL) (d : StandingsDoc),
      d.nodes.filter linkMatch = [] →
      standingsEmit base d = (d, .ok ())) ∧
    (∀ (base : GoURL) (d : StandingsDoc) (n0 : SNode) (h0 : GoURL),
      (d.nodes.filter linkMatch).head? = some n0 → n0.href = some h0 →
      (standingsEmit base d).2 = .ok () ∧
      (standingsEmit base d).1.nodes.length = d.nodes.length ∧
      ∀ i, (hi : i < d.nodes.length) →
        (linkMatch d.nodes[i] = false →
          (standingsEmit base d).1.nodes[i]? = some d.nodes[i]) ∧
        (linkMatch d.nodes[i] = true →
          (standingsEmit base d).1.nodes[i]? =
            some { d.nodes[i] with href := some (resolveReference base h0) })) := by
  constructor
  · intro base d hempty
    simp [standingsEmit, hempty]
  · intro base d n0 h0 hhead hhref
    have hbind : ((d.nodes.filter linkMatch).head?).bind SNode.href = some h0 := by
      rw [hhead]
      simpa using hhref
    have hemit : standingsEmit base d =
        (⟨d.nodes.map (fun n =>
            if linkMatch n then { n with href := some (resolveReference base h0) } else n)⟩,
          .ok ()) := by
      unfold standingsEmit
      rw [hbind]
    refine ⟨by rw [hemit], by rw [hemit]; simp, ?_⟩
    intro i hi
    constructor
    · intro hno
      rw [hemit]
      simp [List.getElem?_eq_getElem hi, hno]
    · intro hyes
      rw [hemit]
      simp [List.getElem?_eq_getElem hi, hyes]

/-- Witness for C8: a document with one matching link and one plain element
keeps the plain element and rewrites the link to the absolute URL; a
document with no link element is returned unchanged. -/
theorem claim_C8_witness :
    standingsEmit ⟨"http", "h", "/s.cgi", ""⟩ ⟨[⟨"div", none⟩]⟩ =
      (⟨[⟨"div", none⟩]⟩, .ok ()) ∧
    (standingsEmit ⟨"http", "h", "/s.cgi", ""⟩
        ⟨[⟨"div", none⟩, ⟨"link", some ⟨"", "", "a.css", ""⟩⟩]⟩).1.nodes[0]? =
      some ⟨"div", none⟩ ∧
    (standingsEmit ⟨"http", "h", "/s.cgi", ""⟩
        ⟨[⟨"div", none⟩, ⟨"link", some ⟨"", "", "a.css", ""⟩⟩]⟩).1.nodes[1]? =
      some ⟨"link", some ⟨"http", "h", "/a.css", ""⟩⟩ := by
  refine ⟨claim_C8.1 ⟨"http", "h", "/s.cgi", ""⟩ ⟨[⟨"div", none⟩]⟩ (by decide), ?_, ?_⟩
  · exact ((claim_C8.2 ⟨"http", "h", "/s.cgi", ""⟩
      ⟨[⟨"div", none⟩, ⟨"link", some ⟨"", "", "a.css", ""⟩⟩]⟩
      ⟨"link", some ⟨"", "", "a.css", ""⟩⟩ ⟨"", "", "a.css", ""⟩
      rfl rfl).2.2 0 (by decide)).1 (by decide)
  · exact ((claim_C8.2 ⟨"http", "h", "/s.cgi", ""⟩
      ⟨[⟨"div", none⟩, ⟨"link", some ⟨"", "", "a.css", ""⟩⟩]⟩
      ⟨"link", some ⟨"", "", "a.css", ""⟩⟩ ⟨"", "", "a.css", ""⟩
      rfl rfl).2.2 1 (by decide)).2 (by decide)

/-- **C9 (counterexample)**: the retained raw capture is goquery
`sel.Html()`, which renders only the *first* element of the row selection -
the header row's inner HTML - so it does not byte-match the full table
content that was parsed (header plus data rows). -/
theorem claim_C9_counterexample :
    (problemsEmit ⟨[⟨["Short name"], "<td>Short name</td>"⟩,
        ⟨["A"], "<td>A</td>"⟩]⟩).summaryTable = "<td>Short name</td>" ∧
    (problemsEmit ⟨[⟨["Short name"], "<td>Short name</td>"⟩,
        ⟨["A"], "<td>A</td>"⟩]⟩).summaryTable ≠
      specTableInnerHtml ⟨[⟨["Short name"], "<td>Short name</td>"⟩,
        ⟨["A"], "<td>A</td>"⟩]⟩ := by
  constructor
  · rfl
  · decide

/-- **C9 (amended)**: the `SummaryTable` capture equals the inner HTML of
the *first* matched row only - the header row whose cells drive the
decoding - not the whole table's content; the data rows that were decoded
into records are the remaining rows. -/
theorem claim_C9 (d : ProblemsDoc) (hd : PRow) (rest : List PRow)
    (hrows : d.rows = hd :: rest) :
    (problemsEmit d).summaryTable = hd.inner ∧
    ((∀ r ∈ rest, ∃ p, decodeProblem hd.cells r.cells = .ok p) →
      (problemsEmit d).problems =
        rest.filterMap (fun r => (decodeProblem hd.cells r.cells).toOption) ∧
      (problemsEmit d).outcome = .ok ()) := by
  constructor
  · simp [problemsEmit, hrows]
  · intro hall
    have hloop := problemsLoop_all_ok rest hall
    constructor <;> simp [problemsEmit, hrows, hloop]

/-- Witness for C9 (amended): on a concrete two-row table the capture is
the header row's inner HTML and the single data row decodes into the
single record. -/
theorem claim_C9_witness :
    (problemsEmit ⟨[⟨["Short name"], "<td>Short name</td>"⟩,
        ⟨["A"], "<td>A</td>"⟩]⟩).summaryTable = "<td>Short name</td>" ∧
    (problemsEmit ⟨[⟨["Short name"], "<td>Short name</td>"⟩,
        ⟨["A"], "<td>A</td>"⟩]⟩).problems = [{ ID := "A" }] ∧
    (problemsEmit ⟨[⟨["Short name"], "<td>Short name</td>"⟩,
        ⟨["A"], "<td>A</td>"⟩]⟩).outcome = .ok () := by
  have h := claim_C9 ⟨[⟨["Short name"], "<td>Short name</td>"⟩, ⟨["A"], "<td>A</td>"⟩]⟩
    ⟨["Short name"], "<td>Short name</td>"⟩ [⟨["A"], "<td>A</td>"⟩] rfl
  have h2 := h.2 (by
    intro r hr
    simp only [List.mem_cons, List.not_mem_nil, or_false] at hr
    subst hr
    exact ⟨_, rfl⟩)
  refine ⟨h.1, ?_, h2.2⟩
  rw [h2.1]
  decide

/-! ## Lemmas about query escaping and encoding (C7) -/

/-- The upper-case hex digits decode back to their values. -/
theorem hexVal_hexDigitUpper : ∀ k, k < 16 → hexVal (hexDigitUpper k) = some k := by
  decide

/-- Characters produced by query escaping are never segment or key/value
separators. -/
theorem hexDigitUpper_ne_sep : ∀ k, k < 16 →
    hexDigitUpper k ≠ '&' ∧ hexDigitUpper k ≠ ';' ∧ hexDigitUpper k ≠ '=' := by
  decide

/-- No output character of `queryEscapeChar` is `&`, `;` or `=`. -/
theorem queryEscapeChar_sep_free {c c' : Char} (h : c' ∈ queryEscapeChar c) :
    c' ≠ '&' ∧ c' ≠ ';' ∧ c' ≠ '=' := by
  unfold queryEscapeChar at h
  split_ifs at h with h1 h2
  · simp only [List.mem_singleton] at h
    subst h
    refine ⟨fun hc => ?_, fun hc => ?_, fun hc => ?_⟩ <;>
      (subst hc; exact absurd h1 (by decide))
  · simp only [List.mem_singleton] at h
    subst h
    exact ⟨by decide, by decide, by decide⟩
  · simp only [List.mem_cons, List.not_mem_nil, or_false] at h
    have ha : c.toNat / 16 % 16 < 16 := Nat.mod_lt _ (by omega)
    have hb : c.toNat % 16 < 16 := Nat.mod_lt _ (by omega)
    rcases h with rfl | rfl | rfl
    · exact ⟨by decide, by decide, by decide⟩
    · exact hexDigitUpper_ne_sep _ ha
    · exact hexDigitUpper_ne_sep _ hb

/-- One-step reduction of `unescapeChars` on a cons cell. -/
theorem unescapeChars_cons (c : Char) (rest : List Char) :
    unescapeChars (c :: rest) =
      (if c = '%' then
        (match rest with
        | a :: b :: rest2 =>
          (match hexVal a, hexVal b with
          | some x, some y => (unescapeChars rest2).map (Char.ofNat (16 * x + y) :: ·)
          | _, _ => none)
        | _ => none)
      else if c = '+' then (unescapeChars rest).map (' ' :: ·)
      else (unescapeChars rest).map (c :: ·)) := by
  rw [unescapeChars.eq_def]

/-- Reduction of `unescapeChars` on an ordinary character. -/
theorem unescapeChars_cons_other {c : Char} (hc1 : c ≠ '%') (hc2 : c ≠ '+')
    (rest : List Char) :
    unescapeChars (c :: rest) = (unescapeChars rest).map (c :: ·) := by
  rw [unescapeChars_cons, if_neg hc1, if_neg hc2]

/-- Reduction of `unescapeChars` on `+`. -/
theorem unescapeChars_cons_plus (rest : List Char) :
    unescapeChars ('+' :: rest) = (unescapeChars rest).map (' ' :: ·) := by
  rw [unescapeChars_cons, if_neg (by decide), if_pos rfl]

/-- Reduction of `unescapeChars` on a full percent escape. -/
theorem unescapeChars_percent (a b : Char) (rest : List Char) :
    unescapeChars ('%' :: a :: b :: rest) =
      (match hexVal a, hexVal b with
      | some x, some y => (unescapeChars rest).map (Char.ofNat (16 * x + y) :: ·)
      | _, _ => none) := by
  rw [unescapeChars_cons, if_pos rfl]

/-- Unescaping inverts the escape of one byte, whatever follows. -/
theorem unescape_escapeChar (c : Char) (hc : c.toNat < 256) (rest : List Char) :
    unescapeChars (queryEscapeChar c ++ rest) = (unescapeChars rest).map (c :: ·) := by
  unfold queryEscapeChar
  split_ifs with h1 h2
  · have hp : c ≠ '%' := by rintro rfl; exact absurd h1 (by decide)
    have hpl : c ≠ '+' := by rintro rfl; exact absurd h1 (by decide)
    rw [List.singleton_append, unescapeChars_cons_other hp hpl]
  · subst h2
    rw [List.singleton_append, unescapeChars_cons_plus]
  · have ha : c.toNat / 16 % 16 < 16 := Nat.mod_lt _ (by omega)
    have hb : c.toNat % 16 < 16 := Nat.mod_lt _ (by omega)
    rw [List.cons_append, List.cons_append, List.singleton_append,
      unescapeChars_percent, hexVal_hexDigitUpper _ ha, hexVal_hexDigitUpper _ hb]
    show (unescapeChars rest).map
      (Char.ofNat (16 * (c.toNat / 16 % 16) + c.toNat % 16) :: ·) = _
    have hval : 16 * (c.toNat / 16 % 16) + c.toNat % 16 = c.toNat := by omega
    rw [hval, Char.ofNat_toNat]

/-- Unescaping inverts the escape of a byte string. -/
theorem unescape_escape_chars (s : List Char) (hs : ∀ c ∈ s, c.toNat < 256) :
    unescapeChars ((s.map queryEscapeChar).flatten) = some s := by
  induction s with
  | nil => rfl
  | cons c cs ih =>
    have hc := hs c (List.mem_cons_self c cs)
    have ih2 := ih (fun x hx => hs x (List.mem_cons_of_mem c hx))
    rw [List.map_cons, List.flatten_cons, unescape_escapeChar c hc, ih2]
    rfl

/-- `QueryUnescape` inverts `QueryEscape` on byte strings. -/
theorem queryUnescape_queryEscape (s : String) (hs : ∀ c ∈ s.data, c.toNat < 256) :
    queryUnescape (queryEscape s) = some s := by
  unfold queryUnescape queryEscape
  rw [unescape_escape_chars s.data hs]
  rfl

/-- Splitting passes over separator-free content, accumulating it. -/
theorem splitSegs_append_nosep (s : List Char) :
    ∀ (cur rest : List Char), (∀ c ∈ s, ¬(c = '&' ∨ c = ';')) →
      splitSegs cur (s ++ rest) = splitSegs (s.reverse ++ cur) rest := by
  induction s with
  | nil => intro cur rest _; simp
  | cons c cs ih =>
    intro cur rest h
    have hc := h c (List.mem_cons_self c cs)
    rw [List.cons_append, splitSegs, if_neg hc,
      ih (c :: cur) rest (fun x hx => h x (List.mem_cons_of_mem c hx))]
    simp

/-- Splitting at a separator emits the accumulated segment. -/
theorem splitSegs_sep (cur rest : List Char) :
    splitSegs cur ('&' :: rest) = cur.reverse :: splitSegs [] rest := by
  rw [splitSegs, if_pos (Or.inl rfl)]

/-- Splitting the `&`-join of separator-free segments recovers them. -/
theorem splitSegs_joinAmp :
    ∀ segs : List (List Char), segs ≠ [] →
      (∀ g ∈ segs, ∀ c ∈ g, ¬(c = '&' ∨ c = ';')) →
      splitSegs [] (joinAmp segs) = segs
  | [], h, _ => absurd rfl h
  | [g], _, hfree => by
    have hjoin : joinAmp [g] = g := rfl
    rw [hjoin]
    have h0 := splitSegs_append_nosep g [] [] (fun c hc => hfree g (by simp) c hc)
    rw [List.append_nil, List.append_nil] at h0
    rw [h0]
    show [g.reverse.reverse] = [g]
    rw [List.reverse_reverse]
  | g :: g2 :: gs, _, hfree => by
    have hjoin : joinAmp (g :: g2 :: gs) = g ++ '&' :: joinAmp (g2 :: gs) := rfl
    rw [hjoin, splitSegs_append_nosep g [] ('&' :: joinAmp (g2 :: gs))
      (fun c hc => hfree g (by simp) c hc)]
    rw [List.append_nil, splitSegs_sep, List.reverse_reverse]
    rw [splitSegs_joinAmp (g2 :: gs) (by simp)
      (fun h hh c hc => hfree h (List.mem_cons_of_mem g hh) c hc)]

/-- Splitting at the first `=` of `a ++ '=' :: b` with `=`-free `a`. -/
theorem splitFirstEq_append {a : List Char} (b : List Char) (ha : '=' ∉ a) :
    splitFirstEq (a ++ '=' :: b) = (a, b) := by
  induction a with
  | nil => rw [List.nil_append, splitFirstEq, if_pos rfl]
  | cons c cs ih =>
    have hc : c ≠ '=' := fun h => ha (h ▸ List.mem_cons_self c cs)
    rw [List.cons_append, splitFirstEq, if_neg hc,
      ih (fun h => ha (List.mem_cons_of_mem c h))]

/-- The characters of an escaped string are never separators. -/
theorem queryEscape_sep_free {c' : Char} (s : String)
    (h : c' ∈ (queryEscape s).data) : ¬(c' = '&' ∨ c' = ';') ∧ c' ≠ '=' := by
  have : c' ∈ (s.data.map queryEscapeChar).flatten := h
  obtain ⟨l, hl, hcl⟩ := List.mem_flatten.mp this
  obtain ⟨c, -, hc⟩ := List.mem_map.mp hl
  obtain ⟨h1, h2, h3⟩ := queryEscapeChar_sep_free (hc ▸ hcl)
  exact ⟨by rintro (rfl | rfl) <;> simp_all, h3⟩

/-- One encoded pair parses back to the pair, for byte strings. -/
theorem parsePair_encodePair (k v : String) (hk : ∀ c ∈ k.data, c.toNat < 256)
    (hv : ∀ c ∈ v.data, c.toNat < 256) :
    parsePair (encodePair (k, v)) = some (k, v) := by
  unfold parsePair encodePair
  have hsplit : splitFirstEq ((queryEscape k).data ++ '=' :: (queryEscape v).data) =
      ((queryEscape k).data, (queryEscape v).data) :=
    splitFirstEq_append _ (fun hmem => (queryEscape_sep_free k hmem).2 rfl)
  rw [hsplit]
  have h1 : queryUnescape ⟨(queryEscape k).data⟩ = some k :=
    queryUnescape_queryEscape k hk
  have h2 : queryUnescape ⟨(queryEscape v).data⟩ = some v :=
    queryUnescape_queryEscape v hv
  rw [h1, h2]

/-- `filterMap` by a function that is `some` on every member. -/
theorem filterMap_some_of_mem {α : Type} {f : α → Option α} :
    ∀ l : List α, (∀ a ∈ l, f a = some a) → l.filterMap f = l
  | [], _ => rfl
  | a :: rest, h => by
    rw [List.filterMap_cons, h a (List.mem_cons_self a rest),
      filterMap_some_of_mem rest (fun x hx => h x (List.mem_cons_of_mem a hx))]

/-- Membership in one insertion step. -/
theorem mem_insertPair {x kv : String × String} :
    ∀ l : List (String × String), x ∈ insertPair kv l ↔ x = kv ∨ x ∈ l
  | [] => by simp [insertPair]
  | y :: rest => by
    rw [insertPair]
    split_ifs with hy
    · rw [List.mem_cons, mem_insertPair rest, List.mem_cons]
      tauto
    · exact List.mem_cons

/-- The key sort preserves membership. -/
theorem mem_sortByKey {x : String × String} (l : List (String × String)) :
    x ∈ sortByKey l ↔ x ∈ l := by
  have haux : ∀ (l acc : List (String × String)),
      x ∈ l.foldl (fun acc kv => insertPair kv acc) acc ↔ x ∈ acc ∨ x ∈ l := by
    intro l
    induction l with
    | nil => intro acc; simp
    | cons kv rest ih =>
      intro acc
      rw [List.foldl_cons, ih, mem_insertPair, List.mem_cons]
      tauto
  rw [sortByKey, haux]
  simp

/-- The key sort preserves length. -/
theorem length_sortByKey :
    ∀ l : List (String × String), (sortByKey l).length = l.length := by
  have hins : ∀ (kv : String × String) (l : List (String × String)),
      (insertPair kv l).length = l.length + 1 := by
    intro kv l
    induction l with
    | nil => rfl
    | cons y rest ih =>
      rw [insertPair]
      split_ifs <;> simp [ih]
  have haux : ∀ (l acc : List (String × String)),
      (l.foldl (fun acc kv => insertPair kv acc) acc).length = acc.length + l.length := by
    intro l
    induction l with
    | nil => intro acc; rfl
    | cons kv rest ih =>
      intro acc
      rw [List.foldl_cons, ih, hins, List.length_cons]
      omega
  intro l
  rw [sortByKey, haux, List.length_nil]
  omega

/-- Go `ParseQuery` inverts `Values.Encode` up to the key sort, for byte
strings: parsing the encoded values yields exactly the sorted pair list. -/
theorem parseQuery_valuesEncode (vs : List (String × String))
    (hb : ∀ kv ∈ vs, (∀ c ∈ kv.1.data, c.toNat < 256) ∧ (∀ c ∈ kv.2.data, c.toNat < 256)) :
    parseQuery (valuesEncode vs) = some (sortByKey vs) := by
  have hbs : ∀ kv ∈ sortByKey vs,
      (∀ c ∈ kv.1.data, c.toNat < 256) ∧ (∀ c ∈ kv.2.data, c.toNat < 256) :=
    fun kv hkv => hb kv ((mem_sortByKey vs).mp hkv)
  set sorted := sortByKey vs with hsorted
  have hparse : ∀ kv ∈ sorted, parsePair (encodePair kv) = some kv := by
    intro kv hkv
    obtain ⟨h1, h2⟩ := hbs kv hkv
    obtain ⟨k, v⟩ := kv
    exact parsePair_encodePair k v h1 h2
  by_cases hsnil : sorted = []
  · unfold parseQuery valuesEncode
    rw [← hsorted, hsnil]
    rfl
  · have hsegs : splitSegs [] (joinAmp (sorted.map encodePair)) = sorted.map encodePair := by
      refine splitSegs_joinAmp _ (by simpa using hsnil) ?_
      intro g hg c hc
      obtain ⟨kv, -, hkv⟩ := List.mem_map.mp hg
      rw [← hkv] at hc
      unfold encodePair at hc
      rcases List.mem_append.mp hc with h | h
      · exact (queryEscape_sep_free kv.1 h).1
      · rcases List.mem_cons.mp h with rfl | h
        · rintro (h | h) <;> cases h
        · exact (queryEscape_sep_free kv.2 h).1
    have hne : ∀ g ∈ sorted.map encodePair, ¬(g = []) := by
      intro g hg
      obtain ⟨kv, -, hkv⟩ := List.mem_map.mp hg
      rw [← hkv]
      unfold encodePair
      simp
    unfold parseQuery valuesEncode
    rw [← hsorted]
    have hdata : (String.mk (joinAmp (sorted.map encodePair))).data =
        joinAmp (sorted.map encodePair) := rfl
    rw [hdata, hsegs]
    rw [List.filter_eq_self.mpr (fun g hg => by simpa using hne g hg)]
    have hall : (sorted.map encodePair).all (fun g => (parsePair g).isSome) = true := by
      rw [List.all_eq_true]
      intro g hg
      obtain ⟨kv, hkv, hkveq⟩ := List.mem_map.mp hg
      rw [← hkveq, hparse kv hkv]
      rfl
    rw [if_pos hall, List.filterMap_map]
    have hfm : List.filterMap (parsePair ∘ encodePair) sorted = sorted :=
      filterMap_some_of_mem sorted hparse
    rw [hfm]

set_option maxRecDepth 4096 in
/-- `Char.ofNat` of a byte value is a byte-valued character. -/
theorem charOfNat_byte : ∀ n, n < 256 → (Char.ofNat n).toNat < 256 := by decide

/-- A decoded hex digit is below 16. -/
theorem hexVal_lt {c : Char} {x : Nat} (h : hexVal c = some x) : x < 16 := by
  unfold hexVal at h
  split_ifs at h with h1 h2 h3
  all_goals injection h with h4
  all_goals omega

/-- Unescaping a byte string yields a byte string. -/
theorem unescapeChars_bytes :
    ∀ (l out : List Char), unescapeChars l = some out →
      (∀ c ∈ l, c.toNat < 256) → ∀ c ∈ out, c.toNat < 256
  | [], out, h, _ => by
    refine fun c hc => ?_
    have : out = [] := by
      have h0 : unescapeChars [] = some [] := rfl
      rw [h0] at h
      exact (Option.some.inj h).symm
    subst this
    cases hc
  | c0 :: rest, out, h, hb => by
    rw [unescapeChars_cons] at h
    split_ifs at h with h1 h2
    · rcases rest with _ | ⟨a, rest1⟩
      · exact Option.noConfusion h
      rcases rest1 with _ | ⟨b, rest2⟩
      · exact Option.noConfusion h
      have h' : (match hexVal a, hexVal b with
          | some x, some y => (unescapeChars rest2).map (Char.ofNat (16 * x + y) :: ·)
          | _, _ => none) = some out := h
      cases hxa : hexVal a <;> rw [hxa] at h'
      · exact Option.noConfusion h'
      · cases hxb : hexVal b <;> rw [hxb] at h'
        · exact Option.noConfusion h'
        · obtain ⟨out2, hout2, houteq⟩ := Option.map_eq_some'.mp h'
          intro c hc
          rw [← houteq] at hc
          rcases List.mem_cons.mp hc with rfl | hc2
          · exact charOfNat_byte _ (by
              have hva := hexVal_lt hxa
              have hvb := hexVal_lt hxb
              omega)
          · refine unescapeChars_bytes rest2 out2 hout2 ?_ c hc2
            intro x hx
            exact hb x (List.mem_cons_of_mem _ (List.mem_cons_of_mem _
              (List.mem_cons_of_mem _ hx)))
    · obtain ⟨out2, hout2, houteq⟩ := Option.map_eq_some'.mp h
      intro c hc
      rw [← houteq] at hc
      rcases List.mem_cons.mp hc with rfl | hc2
      · decide
      · exact unescapeChars_bytes rest out2 hout2
          (fun x hx => hb x (List.mem_cons_of_mem _ hx)) c hc2
    · obtain ⟨out2, hout2, houteq⟩ := Option.map_eq_some'.mp h
      intro c hc
      rw [← houteq] at hc
      rcases List.mem_cons.mp hc with rfl | hc2
      · exact hb _ (List.mem_cons_self _ _)
      · exact unescapeChars_bytes rest out2 hout2
          (fun x hx => hb x (List.mem_cons_of_mem _ hx)) c hc2

/-- Every character of a split segment comes from the accumulator or the
input. -/
theorem splitSegs_chars :
    ∀ (l cur g : List Char), g ∈ splitSegs cur l →
      ∀ c ∈ g, c ∈ cur ∨ c ∈ l
  | [], cur, g, hg, c, hc => by
    have : g = cur.reverse := by
      have h0 : splitSegs cur [] = [cur.reverse] := rfl
      rw [h0] at hg
      simpa using hg
    subst this
    exact Or.inl (List.mem_reverse.mp hc)
  | x :: rest, cur, g, hg, c, hc => by
    rw [splitSegs] at hg
    split_ifs at hg with hx
    · rcases List.mem_cons.mp hg with rfl | hg2
      · exact Or.inl (List.mem_reverse.mp hc)
      · rcases splitSegs_chars rest [] g hg2 c hc with h | h
        · cases h
        · exact Or.inr (List.mem_cons_of_mem _ h)
    · rcases splitSegs_chars rest (x :: cur) g hg c hc with h | h
      · rcases List.mem_cons.mp h with rfl | h2
        · exact Or.inr (List.mem_cons_self _ _)
        · exact Or.inl h2
      · exact Or.inr (List.mem_cons_of_mem _ h)

/-- The key and value parts of a segment are among its characters. -/
theorem splitFirstEq_subset :
    ∀ l : List Char,
      (∀ c ∈ (splitFirstEq l).1, c ∈ l) ∧ (∀ c ∈ (splitFirstEq l).2, c ∈ l)
  | [] => by constructor <;> (intro c hc; cases hc)
  | c0 :: rest => by
    obtain ⟨h1, h2⟩ := splitFirstEq_subset rest
    rw [splitFirstEq]
    split_ifs with hc0
    · constructor
      · intro c hc; cases hc
      · intro c hc
        exact List.mem_cons_of_mem _ hc
    · constructor
      · intro c hc
        rcases List.mem_cons.mp hc with rfl | hc2
        · exact List.mem_cons_self _ _
        · exact List.mem_cons_of_mem _ (h1 c hc2)
      · intro c hc
        exact List.mem_cons_of_mem _ (h2 c hc)

/-- The entries of a parsed byte-valued query string are byte strings. -/
theorem parseQuery_bytes {s : String} {q : List (String × String)}
    (h : parseQuery s = some q) (hb : ∀ c ∈ s.data, c.toNat < 256) :
    ∀ kv ∈ q, (∀ c ∈ kv.1.data, c.toNat < 256) ∧ (∀ c ∈ kv.2.data, c.toNat < 256) := by
  simp only [parseQuery] at h
  split_ifs at h with hall
  intro kv hkv
  rw [← Option.some.inj h] at hkv
  obtain ⟨g, hg, hpg⟩ := List.mem_filterMap.mp hkv
  have hgsub : ∀ c ∈ g, c ∈ s.data := by
    intro c hc
    have hg2 : g ∈ splitSegs [] s.data := List.mem_of_mem_filter hg
    rcases splitSegs_chars s.data [] g hg2 c hc with h0 | h0
    · cases h0
    · exact h0
  unfold parsePair at hpg
  cases hk : queryUnescape ⟨(splitFirstEq g).1⟩ <;> rw [hk] at hpg
  · exact absurd hpg (by simp)
  · cases hv : queryUnescape ⟨(splitFirstEq g).2⟩ <;> rw [hv] at hpg
    · exact absurd hpg (by simp)
    · rw [← Option.some.inj hpg]
      unfold queryUnescape at hk hv
      obtain ⟨outk, houtk, hkeq⟩ := Option.map_eq_some'.mp hk
      obtain ⟨outv, houtv, hveq⟩ := Option.map_eq_some'.mp hv
      constructor
      · rw [← hkeq]
        exact unescapeChars_bytes _ _ houtk
          (fun c hc => hb c (hgsub c ((splitFirstEq_subset g).1 c hc)))
      · rw [← hveq]
        exact unescapeChars_bytes _ _ houtv
          (fun c hc => hb c (hgsub c ((splitFirstEq_subset g).2 c hc)))

/-! ## Claim about the link resolver (C7) -/

/-- **C7**: for an entry page whose action links are present and whose
Submissions link (resolved against the entry page URL) has a parseable
byte-valued query string, the stage succeeds and the stored Submissions URL
(1) keeps the resolved scheme/host/path (so a relative href inherits the
page's host, and a relative non-empty path is resolved by reference
resolution against the page's path), and (2) carries a query whose entry
set is exactly the original entries with every prior `all_runs` entry
replaced by `all_runs=1` (serialization order not guaranteed - the encoder
orders by key). -/
theorem claim_C7 (base : GoURL) (d : HrefDoc) (su0 st0 r : GoURL)
    (q0 : List (String × String))
    (hsu : d.summaryHref = some su0) (hst : d.standingsHref = some st0)
    (hsub : d.submissionsHref = some r)
    (hq : parseQuery (resolveReference base r).rawQuery = some q0)
    (hbytes : ∀ c ∈ (resolveReference base r).rawQuery.data, c.toNat < 256) :
    (hrefEmit base d).outcome = .ok () ∧
    ∃ u, (hrefEmit base d).SubmissionsHref = some u ∧
      u.scheme = (resolveReference base r).scheme ∧
      u.host = (resolveReference base r).host ∧
      u.path = (resolveReference base r).path ∧
      (r.scheme = "" ∧ r.host = "" → u.host = base.host ∧ u.scheme = base.scheme) ∧
      (r.scheme = "" ∧ r.host = "" ∧ ¬(r.path = "" ∧ r.rawQuery = "") →
        u.path = resolvePath base.path r.path) ∧
      ∃ es, parseQuery u.rawQuery = some es ∧
        ∀ kv, kv ∈ es ↔ (kv ∈ q0 ∧ kv.1 ≠ "all_runs") ∨ kv = ("all_runs", "1") := by
  have e1 : parseHref base "Summary" d.summaryHref =
      .ok (resolveReference base su0) := by rw [hsu]; rfl
  have e2 : parseHref base "Standings" d.standingsHref =
      .ok (resolveReference base st0) := by rw [hst]; rfl
  have e3 : parseHref base "Submissions" d.submissionsHref =
      .ok (resolveReference base r) := by rw [hsub]; rfl
  have hemit : hrefEmit base d =
      ⟨some (resolveReference base su0), some (resolveReference base st0),
        some { resolveReference base r with
          rawQuery := valuesEncode (valuesSet q0 "all_runs" "1") }, .ok ()⟩ := by
    unfold hrefEmit
    rw [e1, e2, e3]
    simp only [hq]
  refine ⟨by rw [hemit], { resolveReference base r with
      rawQuery := valuesEncode (valuesSet q0 "all_runs" "1") },
    by rw [hemit], rfl, rfl, rfl, ?_, ?_, ?_⟩
  · rintro ⟨hs0, hh0⟩
    unfold resolveReference
    rw [if_neg (by simp [hs0, hh0])]
    split_ifs <;> exact ⟨rfl, rfl⟩
  · rintro ⟨hs0, hh0, hne⟩
    unfold resolveReference
    rw [if_neg (by simp [hs0, hh0]), if_neg hne]
  · have hqbytes : ∀ kv ∈ valuesSet q0 "all_runs" "1",
        (∀ c ∈ kv.1.data, c.toNat < 256) ∧ (∀ c ∈ kv.2.data, c.toNat < 256) := by
      intro kv hkv
      unfold valuesSet at hkv
      rcases List.mem_append.mp hkv with h | h
      · exact parseQuery_bytes hq hbytes kv (List.mem_of_mem_filter h)
      · rcases List.mem_cons.mp h with rfl | h
        · exact ⟨by decide, by decide⟩
        · cases h
    refine ⟨sortByKey (valuesSet q0 "all_runs" "1"),
      parseQuery_valuesEncode _ hqbytes, ?_⟩
    intro kv
    rw [mem_sortByKey]
    unfold valuesSet
    rw [List.mem_append, List.mem_filter, List.mem_singleton]
    constructor
    · rintro (⟨h1, h2⟩ | h1)
      · exact Or.inl ⟨h1, by simpa using h2⟩
      · exact Or.inr h1
    · rintro (⟨h1, h2⟩ | h1)
      · exact Or.inl ⟨h1, by simpa using h2⟩
      · exact Or.inr h1

/-- Witness for C7: entry URL `http://h/team.cgi?SID=X` with relative
Submissions href `submissions.cgi?a=b` resolves to host `h`, path
`/submissions.cgi`, and a query containing both `a=b` and `all_runs=1`. -/
theorem claim_C7_witness :
    (hrefEmit ⟨"http", "h", "/team.cgi", "SID=X"⟩
      ⟨some ⟨"", "", "summary.cgi", "SID=X"⟩, some ⟨"", "", "standings.cgi", "SID=X"⟩,
        some ⟨"", "", "submissions.cgi", "a=b"⟩⟩).outcome = .ok () ∧
    (hrefEmit ⟨"http", "h", "/team.cgi", "SID=X"⟩
      ⟨some ⟨"", "", "summary.cgi", "SID=X"⟩, some ⟨"", "", "standings.cgi", "SID=X"⟩,
        some ⟨"", "", "submissions.cgi", "a=b"⟩⟩).SubmissionsHref =
      some ⟨"http", "h", "/submissions.cgi", "a=b&all_runs=1"⟩ ∧
    parseQuery "a=b&all_runs=1" = some [("a", "b"), ("all_runs", "1")] := by
  refine ⟨(claim_C7 ⟨"http", "h", "/team.cgi", "SID=X"⟩
      ⟨some ⟨"", "", "summary.cgi", "SID=X"⟩, some ⟨"", "", "standings.cgi", "SID=X"⟩,
        some ⟨"", "", "submissions.cgi", "a=b"⟩⟩
      ⟨"", "", "summary.cgi", "SID=X"⟩ ⟨"", "", "standings.cgi", "SID=X"⟩
      ⟨"", "", "submissions.cgi", "a=b"⟩ [("a", "b")]
      rfl rfl rfl (by decide) (by decide)).1, by decide, by decide⟩

end ContestParser
